import Mathlib

/-!
Verification of the dependency-mapper core: a shallow embedding of the
graph data model (`models.py`), graph assembly (`graph_builder.py`),
topological layering and cycle reporting (`api.py`), the serializers
(`serializers.py`) and the toolchain pre-check (`api.py` / `utils.py`).

Machine-level conventions: Python `dict`s preserve insertion order, so
node and edge collections are embedded as insertion-ordered association
lists with unique keys.  `networkx.DiGraph` is a *simple* directed graph:
`add_node` on an existing key updates its attribute dict, `add_edge` on an
existing `(source, target)` key updates the edge attributes, and
`add_edge` silently creates missing endpoint nodes with an empty
attribute dict.
-/

namespace DependencyMapper

/-- `NodeMetadata` from `models.py`, after `model_dump(mode='json')`:
the `Path` becomes a string, optional line numbers stay optional. -/
structure NodeMetadata where
  file_path : String
  start_line : Option Int
  end_line : Option Int
  contains_dynamic_code : Bool
deriving DecidableEq, Repr

/-- `Node` from `models.py`.  The `type` enum is represented by its
string value (what `model_dump(mode='json')` yields). -/
structure Node where
  id : String
  type : String
  name : String
  metadata : NodeMetadata
deriving DecidableEq, Repr

/-- `Edge` from `models.py`; `type` is the `EdgeType` string value. -/
structure Edge where
  source : String
  target : String
  type : String
deriving DecidableEq, Repr

/-- A node's attribute dict as it occurs in this program's graphs: either
the full four-key dump of a `Node` (from `GraphBuilder.build`'s
`add_node(node.id, **node.model_dump(mode='json'))`) or the empty dict of
a placeholder endpoint created by `add_edge`.  Each field is `some` when
the corresponding dict key is present. -/
structure NodeData where
  id : Option String
  type : Option String
  name : Option String
  metadata : Option NodeMetadata
deriving DecidableEq, Repr

/-- The empty attribute dict that `DiGraph.add_edge` attaches to a
previously-unknown endpoint node. -/
def placeholderData : NodeData := ⟨none, none, none, none⟩

/-- `node.model_dump(mode='json')` of a full `Node`. -/
def Node.dump (n : Node) : NodeData :=
  ⟨some n.id, some n.type, some n.name, some n.metadata⟩

/-- The `networkx.DiGraph` as used by this program: insertion-ordered
node list (key, attribute dict) and insertion-ordered edge list
(source, target, value of the `type` attribute). -/
structure Graph where
  nodes : List (String × NodeData)
  edges : List (String × String × String)
deriving DecidableEq, Repr

def Graph.empty : Graph := ⟨[], []⟩

/-- The node keys, in insertion order (`list(G.nodes)`). -/
def Graph.nodeIds (g : Graph) : List String := g.nodes.map Prod.fst

/-- Attribute-dict lookup `G.nodes[i]`. -/
def Graph.dataOf (g : Graph) (i : String) : Option NodeData :=
  (g.nodes.find? (fun kd => kd.1 == i)).map Prod.snd

/-- `DiGraph.add_node(i, **d)`: update the attribute dict in place when
the key exists (the dumps used by this program carry every key, so the
dict update is a full replacement), otherwise append the node. -/
def Graph.addNode (g : Graph) (i : String) (d : NodeData) : Graph :=
  if g.nodes.any (fun kd => kd.1 == i) then
    { g with nodes := g.nodes.map (fun kd => if kd.1 == i then (kd.1, d) else kd) }
  else
    { g with nodes := g.nodes ++ [(i, d)] }

/-- `add_edge`'s creation of a missing endpoint: append the key with an
empty attribute dict, never touching an existing node. -/
def Graph.ensureNode (g : Graph) (i : String) : Graph :=
  if g.nodes.any (fun kd => kd.1 == i) then g
  else { g with nodes := g.nodes ++ [(i, placeholderData)] }

/-- The edge-insertion step of `add_edge` once both endpoints exist:
update the `type` attribute in place when the `(s, t)` key exists,
otherwise append the edge. -/
def Graph.insertEdge (g : Graph) (s t ty : String) : Graph :=
  if g.edges.any (fun e => e.1 == s && e.2.1 == t) then
    { g with edges := g.edges.map (fun e => if e.1 == s && e.2.1 == t then (s, t, ty) else e) }
  else
    { g with edges := g.edges ++ [(s, t, ty)] }

/-- `DiGraph.add_edge(s, t, type=ty)`: create missing endpoints, then
insert the edge. -/
def Graph.addEdge (g : Graph) (s t ty : String) : Graph :=
  ((g.ensureNode s).ensureNode t).insertEdge s t ty

namespace GraphBuilder

/-- `GraphBuilder.build` from `graph_builder.py`: insert every node with
its full dump, then insert every edge. -/
def build (nodes : List Node) (edges : List Edge) : Graph :=
  let g := nodes.foldl (fun g n => g.addNode n.id n.dump) Graph.empty
  edges.foldl (fun g e => g.addEdge e.source e.target e.type) g

end GraphBuilder

/-! ## Topological layering and cycle reporting (`api.py`)

`get_analysis_layers` delegates to `networkx.topological_generations`
and, on failure, `networkx.find_cycle`.  Those two functions are not
part of this repository, so they are modelled from the spec (§4.5):
layer 0 is all nodes with no incoming edges, layer k+1 the nodes whose
only incoming edges originate in earlier layers, and on a cycle the
operation surfaces one concrete closed cycle, deterministically for a
fixed graph even when the upstream aggregation order varies.  To honour
the determinism requirement the model works on the canonically sorted
node-id list; all downstream choices are functions of the node-id set
and the edge set only. -/

/-- Is there an edge `s → t` (of any type) in the edge list? -/
def hasEdge (edges : List (String × String × String)) (s t : String) : Bool :=
  edges.any (fun e => e.1 == s && e.2.1 == t)

/-- Does `v` have an incoming edge whose source lies in `remaining`? -/
def hasIncomingFrom (edges : List (String × String × String))
    (remaining : List String) (v : String) : Bool :=
  edges.any (fun e => remaining.contains e.1 && e.2.1 == v)

/-- Byte-wise lexicographic order on character lists. -/
def chLe : List Char → List Char → Bool
  | [], _ => true
  | _ :: _, [] => false
  | a :: as, b :: bs =>
    if a.toNat < b.toNat then true
    else if b.toNat < a.toNat then false
    else chLe as bs

/-- Lexicographic order on strings (the canonical id order used by the
deterministic layering model). -/
def strLe (a b : String) : Bool := chLe a.data b.data

/-- Canonically sort an id list. -/
def sortIds (l : List String) : List String :=
  l.insertionSort (fun a b => strLe a b = true)

/-- Modelled from the spec: `networkx.topological_generations` (§4.5).
Repeatedly peel the set of nodes with no incoming edge from the
remaining subgraph; report the stuck remaining set when no node can be
peeled.  The fuel argument only bounds the recursion; with
`fuel ≥ remaining.length` it is never exhausted. -/
def topoAux (edges : List (String × String × String)) :
    Nat → List String → Except (List String) (List (List String))
  | 0, remaining => if remaining.isEmpty then .ok [] else .error remaining
  | fuel + 1, remaining =>
    if remaining.isEmpty then .ok []
    else if (remaining.filter (fun v => !hasIncomingFrom edges remaining v)).isEmpty then
      .error remaining
    else
      match topoAux edges fuel (remaining.filter (fun v => hasIncomingFrom edges remaining v)) with
      | .ok ls => .ok (remaining.filter (fun v => !hasIncomingFrom edges remaining v) :: ls)
      | .error r => .error r

/-- The layering run on the canonically sorted node-id list. -/
def topoGenerations (g : Graph) : Except (List String) (List (List String)) :=
  let ids := sortIds g.nodeIds
  topoAux g.edges ids.length ids

/-- The first member of `remaining` that is a predecessor of `v`
(total by the stuck-set property; the default branch is unreachable
there). -/
def predIn (edges : List (String × String × String))
    (remaining : List String) (v : String) : String :=
  (remaining.find? (fun u => hasEdge edges u v)).getD v

/-- Walk predecessor-to-predecessor through the stuck set, `path`
holding the ids visited so far (most recent first), until an id repeats;
the cycle is the repeated id followed by the walked ids back down to its
earlier occurrence.  A genuine closed cycle of the graph, extracted from
the stuck remaining set. -/
def walkToCycle (pred : String → String) : Nat → List String → List String
  | 0, _ => []
  | _ + 1, [] => []
  | fuel + 1, x :: path =>
    if (x :: path).contains (pred x) then
      pred x :: (x :: path).takeWhile (fun y => !(y == pred x))
    else walkToCycle pred fuel (pred x :: x :: path)

/-- Modelled from the spec: `networkx.find_cycle` surfaces one concrete
cycle — an ordered sequence of node ids returning to its own start —
deterministically for a fixed graph.  The model walks predecessors
inside the stuck remaining set reported by the layering. -/
def findCycleIn (edges : List (String × String × String))
    (remaining : List String) : List String :=
  match remaining with
  | [] => []
  | x :: _ => walkToCycle (predIn edges remaining) (remaining.length + 1) [x]

/-- The distinguishable error raised by `get_analysis_layers`
(`CircularDependencyError` in `api.py`). -/
inductive AnalysisError where
  | circular (msg : String)
deriving DecidableEq, Repr

/-- `f"'{node}'"` -/
def quoteId (v : String) : String := "'" ++ v ++ "'"

/-- The human-readable rendering of a node-id sequence, as built in
`api.py`: quoted ids joined by `" -> "`, behind the fixed prefix text. -/
def renderedCyclePath (seq : List String) : String :=
  "A circular dependency was detected: " ++ String.intercalate " -> " (seq.map quoteId)

/-- The message of `CircularDependencyError`: the cycle's node ids
followed by the first id again (`+ f" -> '{cycle[0][0]}'"`). -/
def cycleMessage (c : List String) : String :=
  renderedCyclePath (c ++ [c.headD ""])

/-- `get_analysis_layers` from `api.py`: return the topological
generations, or raise `CircularDependencyError` carrying the rendered
cycle found in the graph. -/
def get_analysis_layers (g : Graph) : Except AnalysisError (List (List String)) :=
  match topoGenerations g with
  | .ok ls => .ok ls
  | .error remaining => .error (.circular (cycleMessage (findCycleIn g.edges remaining)))

/-! ## Cycles -/

/-- `c` is a directed cycle of `g`: nonempty, consecutive members are
edges, and the last member has an edge back to the first. -/
def IsCycle (g : Graph) (c : List String) : Prop :=
  c ≠ [] ∧ List.Chain' (fun a b => hasEdge g.edges a b = true) c ∧
    hasEdge g.edges (c.getLastD "") (c.headD "") = true

/-- The graph contains a directed cycle. -/
def HasCycle (g : Graph) : Prop := ∃ c, IsCycle g c

/-! ## Serializers (`serializers.py`) -/

/-- The link-list JSON document produced by
`json_graph.node_link_data`: one entry per node carrying the node key
and its full attribute dict, one entry per link carrying source, target
and the `type` attribute. -/
structure JsonDoc where
  nodes : List (String × NodeData)
  links : List (String × String × String)
deriving DecidableEq, Repr

namespace JsonSerializer

/-- `JsonSerializer.serialize`: the node-link document of the graph
(the `json.dumps` text is a faithful rendering of this document). -/
def serialize (g : Graph) : JsonDoc := ⟨g.nodes, g.edges⟩

/-- Modelled from the spec: the decoder the link-list document `round-trips
back to an equivalent graph` with (`json_graph.node_link_graph`, not part
of this repository): rebuild the graph by inserting every node entry with
its attributes and every link entry. -/
def deserialize (d : JsonDoc) : Graph :=
  let g := d.nodes.foldl (fun g kd => g.addNode kd.1 kd.2) Graph.empty
  d.links.foldl (fun g e => g.addEdge e.1 e.2.1 e.2.2) g

end JsonSerializer

/-- Split a character list at every occurrence of `sep`
(`str.split(sep)` semantics; the result list is never empty). -/
def splitOnChar (sep : Char) : List Char → List (List Char)
  | [] => [[]]
  | c :: rest =>
    match splitOnChar sep rest with
    | [] => [[]]
    | h :: t => if c.toNat = sep.toNat then [] :: h :: t else (c :: h) :: t

/-- Python's `s.split(':')[-1]`. -/
def splitColonLast (s : String) : String :=
  String.mk ((splitOnChar ':' s.data).getLastD s.data)

/-- A node's attribute dict on the visualization copy built by
`DotSerializer.serialize`: the copied attributes plus the `label` key
the serializer writes. -/
structure VizData where
  id : Option String
  type : Option String
  name : Option String
  metadata : Option NodeMetadata
  label : Option String
deriving DecidableEq, Repr

/-- `graph.copy()`'s attribute dict for one node (no `label` key yet). -/
def VizData.ofNodeData (d : NodeData) : VizData := ⟨d.id, d.type, d.name, d.metadata, none⟩

/-- The per-node loop body of `DotSerializer.serialize`:
`data['label'] = data.get('name', node).split(':')[-1]` followed by
`del data['name']` when present. -/
def vizStep (nodeKey : String) (d : VizData) : VizData :=
  let d := { d with label := some (splitColonLast (d.name.getD nodeKey)) }
  { d with name := none }

/-- The DOT document handed to `pydot` (`to_pydot` emits one statement
per node with its attribute dict and one per edge with its `type`
attribute, which `to_string` renders as text). -/
structure DotDoc where
  nodes : List (String × VizData)
  edges : List (String × String × String)
deriving DecidableEq, Repr

namespace DotSerializer

/-- `DotSerializer.serialize`: relabel on a copy (`viz_graph =
graph.copy()`), leaving the caller's graph untouched.  The result pairs
the emitted document with the caller-visible graph after the call. -/
def serialize (g : Graph) : DotDoc × Graph :=
  let viz : DotDoc :=
    ⟨g.nodes.map (fun kd => (kd.1, vizStep kd.1 (VizData.ofNodeData kd.2))), g.edges⟩
  (viz, g)

end DotSerializer

/-- Split a character list at every occurrence of `__`
(`str.split("__")` semantics). -/
def splitOnUnderscores : List Char → List (List Char)
  | [] => [[]]
  | '_' :: '_' :: rest => [] :: splitOnUnderscores rest
  | c :: rest =>
    match splitOnUnderscores rest with
    | [] => [[]]
    | h :: t => (c :: h) :: t

/-- The label the spec's description-text rule asks for: the substring
of the node's identity after the last identity-path separator
(`<relative-file-path>__<qualified-name>`), simplified to the last
segment of the qualified name — the node's `name` semantics. -/
def specSimplifiedLabel (id : String) : String :=
  String.mk ((splitOnChar '.' ((splitOnUnderscores id.data).getLastD id.data)).getLastD
    ((splitOnUnderscores id.data).getLastD id.data))

/-! ## Toolchain pre-check (`api.py` / `utils.py`) -/

def TS_JS_EXTENSIONS : List String := [".ts", ".js", ".tsx", ".jsx"]

/-- `pathlib.Path.suffix`: the extension of the final path component,
empty when the name (past a leading dot) contains no dot. -/
def pathSuffix (p : String) : String :=
  if ((((splitOnChar '/' p.data).getLastD p.data)).drop 1).any (fun c => c == '.') then
    String.mk ('.' :: ((splitOnChar '.' ((splitOnChar '/' p.data).getLastD p.data)).getLastD
      ((splitOnChar '/' p.data).getLastD p.data)))
  else ""

/-- `check_command_installed` from `utils.py`; `which` says whether a
command is on the PATH (`shutil.which`). -/
def check_command_installed (which : String → Bool) (command : String) : Except String Unit :=
  if which command then .ok ()
  else .error ("Command '" ++ command ++ "' not found in PATH. " ++
    "Please ensure it is installed and accessible to run the parser.")

/-- `run_parallel_parsing` from `orchestrator.py`: aggregate every
file's fact batch by concatenation (`parse` abstracts the per-file
analyzer result). -/
def run_parallel_parsing (files : List String)
    (parse : String → List Node × List Edge) : List Node × List Edge :=
  files.foldl (fun acc f => (acc.1 ++ (parse f).1, acc.2 ++ (parse f).2)) ([], [])

/-- `generate_graph` from `api.py`: walk the files, check that `node`
is installed when any TypeScript/JavaScript file is present (raising
before any per-file parsing), then parse and assemble. -/
def generate_graph (which : String → Bool) (files : List String)
    (parse : String → List Node × List Edge) : Except String Graph :=
  match (if files.any (fun p => TS_JS_EXTENSIONS.contains (pathSuffix p)) then
           check_command_installed which "node"
         else .ok ()) with
  | .error e => .error e
  | .ok _ =>
    let agg := run_parallel_parsing files parse
    .ok (GraphBuilder.build agg.1 agg.2)

/-! ## Order facts for the canonical id sort -/

theorem chLe_total : ∀ a b : List Char, chLe a b = true ∨ chLe b a = true := by
  intro a
  induction a with
  | nil => intro b; left; rfl
  | cons x xs ih =>
    intro b
    cases b with
    | nil => right; rfl
    | cons y ys =>
      by_cases hxy : x.toNat < y.toNat
      · left; simp [chLe, hxy]
      · by_cases hyx : y.toNat < x.toNat
        · right; simp [chLe, hyx]
        · rcases ih ys with h | h
          · left; simp [chLe, hxy, hyx, h]
          · right; simp [chLe, hxy, hyx, h]

theorem chLe_trans : ∀ a b c : List Char,
    chLe a b = true → chLe b c = true → chLe a c = true := by
  intro a
  induction a with
  | nil => intro b c _ _; rfl
  | cons x xs ih =>
    intro b c hab hbc
    cases b with
    | nil => simp [chLe] at hab
    | cons y ys =>
      cases c with
      | nil => simp [chLe] at hbc
      | cons z zs =>
        simp only [chLe] at hab hbc ⊢
        by_cases h1 : x.toNat < y.toNat
        · simp only [h1, if_pos] at hab
          by_cases h3 : y.toNat < z.toNat
          · simp [show x.toNat < z.toNat by omega]
          · simp only [h3, if_neg, if_false] at hbc
            by_cases h4 : z.toNat < y.toNat
            · simp [h4] at hbc
            · simp [show x.toNat < z.toNat by omega]
        · by_cases h2 : y.toNat < x.toNat
          · simp [h1, h2] at hab
          · simp only [h1, h2, if_neg, if_false] at hab
            by_cases h3 : y.toNat < z.toNat
            · simp [show x.toNat < z.toNat by omega]
            · by_cases h4 : z.toNat < y.toNat
              · simp [h3, h4] at hbc
              · simp only [h3, h4, if_neg, if_false] at hbc
                simp [show ¬ x.toNat < z.toNat by omega,
                  show ¬ z.toNat < x.toNat by omega, ih ys zs hab hbc]

theorem chLe_antisymm : ∀ a b : List Char,
    chLe a b = true → chLe b a = true → a = b := by
  intro a
  induction a with
  | nil =>
    intro b _ hba
    cases b with
    | nil => rfl
    | cons y ys => simp [chLe] at hba
  | cons x xs ih =>
    intro b hab hba
    cases b with
    | nil => simp [chLe] at hab
    | cons y ys =>
      simp only [chLe] at hab hba
      by_cases h1 : x.toNat < y.toNat
      · simp [show ¬ y.toNat < x.toNat by omega, h1] at hba
      · by_cases h2 : y.toNat < x.toNat
        · simp [h1, h2] at hab
        · simp only [h1, h2, if_neg, if_false] at hab hba
          have hn : x.toNat = y.toNat := by omega
          have hxy : x = y := Char.eq_of_val_eq (UInt32.toNat.inj hn)
          rw [hxy, ih ys hab hba]

theorem strLe_total (a b : String) : strLe a b = true ∨ strLe b a = true :=
  chLe_total a.data b.data

theorem strLe_trans {a b c : String} (h1 : strLe a b = true) (h2 : strLe b c = true) :
    strLe a c = true :=
  chLe_trans a.data b.data c.data h1 h2

theorem strLe_antisymm {a b : String} (h1 : strLe a b = true) (h2 : strLe b a = true) :
    a = b := by
  have := chLe_antisymm a.data b.data h1 h2
  cases a
  cases b
  exact congrArg String.mk this

instance : IsTotal String (fun a b => strLe a b = true) := ⟨strLe_total⟩

instance : IsTrans String (fun a b => strLe a b = true) := ⟨fun _ _ _ => strLe_trans⟩

instance : IsAntisymm String (fun a b => strLe a b = true) := ⟨fun _ _ => strLe_antisymm⟩

theorem sortIds_perm (l : List String) : (sortIds l).Perm l :=
  List.perm_insertionSort _ l

theorem sortIds_sorted (l : List String) :
    List.Sorted (fun a b => strLe a b = true) (sortIds l) :=
  List.sorted_insertionSort _ l

/-- Canonical sorting is invariant under permutation of the input:
the heart of the determinism of the layering model. -/
theorem sortIds_eq_of_perm {l₁ l₂ : List String} (h : l₁.Perm l₂) :
    sortIds l₁ = sortIds l₂ :=
  List.eq_of_perm_of_sorted
    ((sortIds_perm l₁).trans (h.trans (sortIds_perm l₂).symm))
    (sortIds_sorted l₁) (sortIds_sorted l₂)

theorem mem_sortIds {x : String} {l : List String} : x ∈ sortIds l ↔ x ∈ l :=
  (sortIds_perm l).mem_iff

/-! ## Graph-operation lemmas -/

theorem keyAny_iff {l : List (String × NodeData)} {i : String} :
    l.any (fun kd => kd.1 == i) = true ↔ i ∈ l.map Prod.fst := by
  simp [List.any_eq_true, List.mem_map]

theorem find?_key_map_replace_self {l : List (String × NodeData)} {i : String}
    {d : NodeData} (h : i ∈ l.map Prod.fst) :
    (l.map (fun kd => if kd.1 == i then (kd.1, d) else kd)).find?
      (fun kd => kd.1 == i) = some (i, d) := by
  induction l with
  | nil => simp at h
  | cons kd l ih =>
    by_cases hk : kd.1 = i
    · subst hk
      simp [List.find?]
    · have h' : i ∈ l.map Prod.fst := by
        rcases List.mem_map.mp h with ⟨x, hx, hfst⟩
        rcases List.mem_cons.mp hx with rfl | hxl
        · exact absurd hfst hk
        · exact List.mem_map.mpr ⟨x, hxl, hfst⟩
      have hne : (kd.1 == i) = false := by simp [hk]
      rw [List.map_cons, if_neg (by simp [hk]), List.find?_cons_of_neg _ (by simp [hk])]
      exact ih h'

theorem find?_key_map_replace_other {l : List (String × NodeData)} {i j : String}
    {d : NodeData} (h : ¬ j = i) :
    (l.map (fun kd => if kd.1 == i then (kd.1, d) else kd)).find?
      (fun kd => kd.1 == j) = l.find? (fun kd => kd.1 == j) := by
  induction l with
  | nil => rfl
  | cons kd l ih =>
    by_cases hk : kd.1 = i
    · have hkj : ¬ kd.1 = j := fun he => h (he.symm.trans hk)
      rw [List.map_cons, if_pos (by simp [hk]),
        List.find?_cons_of_neg _ (by simp [hk]; exact fun he => h he.symm),
        List.find?_cons_of_neg _ (by simp [hkj])]
      exact ih
    · by_cases hj : kd.1 = j
      · rw [List.map_cons, if_neg (by simp [hk]),
          List.find?_cons_of_pos _ (by simp [hj]), List.find?_cons_of_pos _ (by simp [hj])]
      · rw [List.map_cons, if_neg (by simp [hk]),
          List.find?_cons_of_neg _ (by simp [hj]), List.find?_cons_of_neg _ (by simp [hj])]
        exact ih

theorem find?_key_append_left {l₁ l₂ : List (String × NodeData)} {j : String}
    (h : j ∈ l₁.map Prod.fst) :
    (l₁ ++ l₂).find? (fun kd => kd.1 == j) = l₁.find? (fun kd => kd.1 == j) := by
  induction l₁ with
  | nil => simp at h
  | cons kd l ih =>
    by_cases hj : kd.1 = j
    · rw [List.cons_append, List.find?_cons_of_pos _ (by simp [hj]),
        List.find?_cons_of_pos _ (by simp [hj])]
    · have h' : j ∈ l.map Prod.fst := by
        rcases List.mem_map.mp h with ⟨x, hx, hfst⟩
        rcases List.mem_cons.mp hx with rfl | hxl
        · exact absurd hfst hj
        · exact List.mem_map.mpr ⟨x, hxl, hfst⟩
      rw [List.cons_append, List.find?_cons_of_neg _ (by simp [hj]),
        List.find?_cons_of_neg _ (by simp [hj])]
      exact ih h'

theorem find?_key_append_right {l₁ l₂ : List (String × NodeData)} {j : String}
    (h : ¬ j ∈ l₁.map Prod.fst) :
    (l₁ ++ l₂).find? (fun kd => kd.1 == j) = l₂.find? (fun kd => kd.1 == j) := by
  induction l₁ with
  | nil => rfl
  | cons kd l ih =>
    have hj : ¬ kd.1 = j := fun he => h (List.mem_map.mpr ⟨kd, List.mem_cons_self kd l, he⟩)
    have h' : ¬ j ∈ l.map Prod.fst := fun hm => by
      rcases List.mem_map.mp hm with ⟨x, hx, hfst⟩
      exact h (List.mem_map.mpr ⟨x, List.mem_cons_of_mem kd hx, hfst⟩)
    rw [List.cons_append, List.find?_cons_of_neg _ (by simp [hj])]
    exact ih h'

namespace Graph

@[simp] theorem edges_addNode (g : Graph) (i : String) (d : NodeData) :
    (g.addNode i d).edges = g.edges := by
  unfold addNode; split <;> rfl

@[simp] theorem edges_ensureNode (g : Graph) (i : String) :
    (g.ensureNode i).edges = g.edges := by
  unfold ensureNode; split <;> rfl

theorem nodeIds_addNode_mem {g : Graph} {i : String} (d : NodeData)
    (h : i ∈ g.nodeIds) : (g.addNode i d).nodeIds = g.nodeIds := by
  unfold addNode
  rw [if_pos (keyAny_iff.mpr h)]
  show (g.nodes.map _).map Prod.fst = g.nodes.map Prod.fst
  rw [List.map_map]
  apply List.map_congr_left
  intro kd _
  by_cases hk : kd.1 = i <;> simp [hk]

theorem nodeIds_addNode_notMem {g : Graph} {i : String} (d : NodeData)
    (h : ¬ i ∈ g.nodeIds) : (g.addNode i d).nodeIds = g.nodeIds ++ [i] := by
  unfold addNode
  rw [if_neg (fun hc => h (keyAny_iff.mp hc))]
  show (g.nodes ++ [(i, d)]).map Prod.fst = g.nodes.map Prod.fst ++ [i]
  simp

theorem mem_nodeIds_addNode {g : Graph} {i x : String} {d : NodeData} :
    x ∈ (g.addNode i d).nodeIds ↔ x ∈ g.nodeIds ∨ x = i := by
  by_cases h : i ∈ g.nodeIds
  · rw [nodeIds_addNode_mem d h]
    constructor
    · exact Or.inl
    · rintro (hx | rfl)
      · exact hx
      · exact h
  · rw [nodeIds_addNode_notMem d h]; simp

theorem nodup_nodeIds_addNode {g : Graph} {i : String} (d : NodeData)
    (h : g.nodeIds.Nodup) : (g.addNode i d).nodeIds.Nodup := by
  by_cases hm : i ∈ g.nodeIds
  · rwa [nodeIds_addNode_mem d hm]
  · rw [nodeIds_addNode_notMem d hm]
    refine List.Nodup.append h (List.nodup_singleton i) ?_
    intro x hx hy
    simp only [List.mem_singleton] at hy
    exact hm (hy ▸ hx)

theorem ensureNode_of_mem {g : Graph} {i : String} (h : i ∈ g.nodeIds) :
    g.ensureNode i = g := by
  unfold ensureNode
  rw [if_pos (keyAny_iff.mpr h)]

theorem ensureNode_of_notMem {g : Graph} {i : String} (h : ¬ i ∈ g.nodeIds) :
    g.ensureNode i = { g with nodes := g.nodes ++ [(i, placeholderData)] } := by
  unfold ensureNode
  rw [if_neg (fun hc => h (keyAny_iff.mp hc))]

theorem mem_nodeIds_ensureNode {g : Graph} {i x : String} :
    x ∈ (g.ensureNode i).nodeIds ↔ x ∈ g.nodeIds ∨ x = i := by
  by_cases h : i ∈ g.nodeIds
  · rw [ensureNode_of_mem h]
    constructor
    · exact Or.inl
    · rintro (hx | rfl)
      · exact hx
      · exact h
  · rw [ensureNode_of_notMem h]
    show x ∈ (g.nodes ++ [(i, placeholderData)]).map Prod.fst ↔ _
    simp [nodeIds]

theorem nodup_nodeIds_ensureNode {g : Graph} {i : String}
    (h : g.nodeIds.Nodup) : (g.ensureNode i).nodeIds.Nodup := by
  by_cases hm : i ∈ g.nodeIds
  · rwa [ensureNode_of_mem hm]
  · rw [ensureNode_of_notMem hm]
    show ((g.nodes ++ [(i, placeholderData)]).map Prod.fst).Nodup
    simp only [List.map_append, List.map_cons, List.map_nil]
    refine List.Nodup.append h (List.nodup_singleton i) ?_
    intro x hx hy
    simp only [List.mem_singleton] at hy
    exact hm (hy ▸ hx)

theorem dataOf_addNode_self {g : Graph} {i : String} (d : NodeData) :
    (g.addNode i d).dataOf i = some d := by
  by_cases h : i ∈ g.nodeIds
  · unfold addNode dataOf
    rw [if_pos (keyAny_iff.mpr h), find?_key_map_replace_self h]
    rfl
  · unfold addNode dataOf
    rw [if_neg (fun hc => h (keyAny_iff.mp hc))]
    show ((g.nodes ++ [(i, d)]).find? _).map Prod.snd = _
    rw [find?_key_append_right h, List.find?_cons_of_pos _ (by simp)]
    rfl

theorem dataOf_addNode_other {g : Graph} {i j : String} {d : NodeData}
    (h : ¬ j = i) : (g.addNode i d).dataOf j = g.dataOf j := by
  by_cases hm : i ∈ g.nodeIds
  · unfold addNode dataOf
    rw [if_pos (keyAny_iff.mpr hm), find?_key_map_replace_other h]
  · unfold addNode dataOf
    rw [if_neg (fun hc => hm (keyAny_iff.mp hc))]
    by_cases hj : j ∈ g.nodeIds
    · show ((g.nodes ++ [(i, d)]).find? _).map Prod.snd = _
      rw [find?_key_append_left hj]
    · show ((g.nodes ++ [(i, d)]).find? _).map Prod.snd = _
      rw [find?_key_append_right hj, List.find?_cons_of_neg _ (by simp; exact fun he => h he.symm)]
      show _ = (g.nodes.find? _).map Prod.snd
      rw [List.find?_eq_none.mpr (fun kd hk hp => hj
        (List.mem_map.mpr ⟨kd, hk, by simpa using hp⟩))]
      rfl

theorem dataOf_eq_none_iff {g : Graph} {i : String} :
    g.dataOf i = none ↔ ¬ i ∈ g.nodeIds := by
  unfold dataOf
  constructor
  · intro h hm
    rcases List.mem_map.mp hm with ⟨kd, hk, hfst⟩
    rcases Option.map_eq_none'.mp h with hnone
    have := List.find?_eq_none.mp hnone kd hk
    simp [hfst] at this
  · intro hm
    rw [List.find?_eq_none.mpr (fun kd hk hp => hm
      (List.mem_map.mpr ⟨kd, hk, by simpa using hp⟩))]
    rfl

theorem dataOf_ensureNode_self_notMem {g : Graph} {i : String}
    (h : ¬ i ∈ g.nodeIds) : (g.ensureNode i).dataOf i = some placeholderData := by
  rw [ensureNode_of_notMem h]
  show ((g.nodes ++ [(i, placeholderData)]).find? _).map Prod.snd = _
  rw [find?_key_append_right h, List.find?_cons_of_pos _ (by simp)]
  rfl

theorem dataOf_ensureNode_of_mem {g : Graph} {i j : String} (h : j ∈ g.nodeIds) :
    (g.ensureNode i).dataOf j = g.dataOf j := by
  by_cases hm : i ∈ g.nodeIds
  · rw [ensureNode_of_mem hm]
  · rw [ensureNode_of_notMem hm]
    show ((g.nodes ++ [(i, placeholderData)]).find? _).map Prod.snd = _
    rw [find?_key_append_left h]
    rfl

theorem dataOf_ensureNode_placeholder {g : Graph} {i j : String}
    (h : g.dataOf j = none ∨ g.dataOf j = some placeholderData) :
    (g.ensureNode i).dataOf j = none ∨
      (g.ensureNode i).dataOf j = some placeholderData := by
  by_cases hm : i ∈ g.nodeIds
  · rw [ensureNode_of_mem hm]; exact h
  · by_cases hj : j = i
    · subst hj
      exact Or.inr (dataOf_ensureNode_self_notMem hm)
    · rw [ensureNode_of_notMem hm]
      show ((g.nodes ++ [(i, placeholderData)]).find? _).map Prod.snd = none ∨
        ((g.nodes ++ [(i, placeholderData)]).find? _).map Prod.snd = some placeholderData
      by_cases hjm : j ∈ g.nodeIds
      · rw [find?_key_append_left hjm]; exact h
      · rw [find?_key_append_right hjm,
          List.find?_cons_of_neg _ (by simp; exact fun he => hj he.symm)]
        exact Or.inl rfl

@[simp] theorem nodes_insertEdge (g : Graph) (s t ty : String) :
    (g.insertEdge s t ty).nodes = g.nodes := by
  unfold insertEdge; split <;> rfl

@[simp] theorem nodes_addEdge (g : Graph) (s t ty : String) :
    (g.addEdge s t ty).nodes = ((g.ensureNode s).ensureNode t).nodes := by
  unfold addEdge; rw [nodes_insertEdge]

@[simp] theorem edges_addEdge_eq (g : Graph) (s t ty : String) :
    (g.addEdge s t ty).edges = (g.insertEdge s t ty).edges := by
  unfold addEdge insertEdge
  rw [edges_ensureNode, edges_ensureNode]
  split <;> rfl

theorem nodeIds_addEdge (g : Graph) (s t ty : String) :
    (g.addEdge s t ty).nodeIds = ((g.ensureNode s).ensureNode t).nodeIds := by
  unfold nodeIds; rw [nodes_addEdge]

theorem dataOf_addEdge_of_mem {g : Graph} {s t ty j : String} (h : j ∈ g.nodeIds) :
    (g.addEdge s t ty).dataOf j = g.dataOf j := by
  have h2 : j ∈ (g.ensureNode s).nodeIds := mem_nodeIds_ensureNode.mpr (Or.inl h)
  have e1 : (g.addEdge s t ty).dataOf j = ((g.ensureNode s).ensureNode t).dataOf j := by
    unfold dataOf; rw [nodes_addEdge]
  rw [e1, dataOf_ensureNode_of_mem h2, dataOf_ensureNode_of_mem h]

theorem mem_nodeIds_addEdge {g : Graph} {s t ty x : String} :
    x ∈ (g.addEdge s t ty).nodeIds ↔ x ∈ g.nodeIds ∨ x = s ∨ x = t := by
  rw [nodeIds_addEdge, mem_nodeIds_ensureNode, mem_nodeIds_ensureNode]
  tauto

theorem nodup_nodeIds_addEdge {g : Graph} {s t ty : String}
    (h : g.nodeIds.Nodup) : (g.addEdge s t ty).nodeIds.Nodup := by
  rw [nodeIds_addEdge]
  exact nodup_nodeIds_ensureNode (nodup_nodeIds_ensureNode h)

end Graph

/-- The `(source, target)` key of an edge entry. -/
def pairOf (e : String × String × String) : String × String := (e.1, e.2.1)

/-- The `(s, t)` key is present in the edge list. -/
def PairMem (edges : List (String × String × String)) (s t : String) : Prop :=
  ∃ ty, (s, t, ty) ∈ edges

theorem hasEdge_iff {edges : List (String × String × String)} {s t : String} :
    hasEdge edges s t = true ↔ PairMem edges s t := by
  unfold hasEdge PairMem
  rw [List.any_eq_true]
  constructor
  · rintro ⟨⟨a, b, ty⟩, hmem, hp⟩
    simp only [Bool.and_eq_true, beq_iff_eq] at hp
    exact ⟨ty, by rw [← hp.1, ← hp.2]; exact hmem⟩
  · rintro ⟨ty, hmem⟩
    exact ⟨(s, t, ty), hmem, by simp⟩

theorem edges_addEdge_pairs (g : Graph) (s t ty : String) :
    ((g.addEdge s t ty).edges.map pairOf = g.edges.map pairOf ∧
      PairMem g.edges s t) ∨
    ((g.addEdge s t ty).edges = g.edges ++ [(s, t, ty)] ∧ ¬ PairMem g.edges s t) := by
  rw [Graph.edges_addEdge_eq]
  unfold Graph.insertEdge
  by_cases h : g.edges.any (fun e => e.1 == s && e.2.1 == t) = true
  · left
    rw [if_pos (by simpa using h)]
    refine ⟨?_, hasEdge_iff.mp h⟩
    show (g.edges.map _).map pairOf = _
    rw [List.map_map]
    apply List.map_congr_left
    rintro ⟨a, b, ty'⟩ _
    by_cases hp : a = s ∧ b = t
    · simp [pairOf, hp.1, hp.2]
    · have : ((a, b, ty').1 == s && (a, b, ty').2.1 == t) = false := by
        simp only [Bool.and_eq_false_iff, beq_eq_false_iff_ne]
        tauto
      simp [Function.comp, this]
  · right
    rw [if_neg (by simpa using h)]
    exact ⟨rfl, fun hp => h (hasEdge_iff.mpr hp)⟩

theorem pairMem_addEdge {g : Graph} {s t ty a b : String} :
    PairMem (g.addEdge s t ty).edges a b ↔ PairMem g.edges a b ∨ (a = s ∧ b = t) := by
  have hmap : ∀ (l₁ l₂ : List (String × String × String)),
      l₁.map pairOf = l₂.map pairOf → (PairMem l₁ a b ↔ PairMem l₂ a b) := by
    intro l₁ l₂ hmap
    constructor <;> intro ⟨ty', hm⟩
    · have : (a, b) ∈ l₂.map pairOf := by
        rw [← hmap]; exact List.mem_map.mpr ⟨(a, b, ty'), hm, rfl⟩
      rcases List.mem_map.mp this with ⟨⟨a', b', ty''⟩, hm2, hp⟩
      cases hp
      exact ⟨ty'', hm2⟩
    · have : (a, b) ∈ l₁.map pairOf := by
        rw [hmap]; exact List.mem_map.mpr ⟨(a, b, ty'), hm, rfl⟩
      rcases List.mem_map.mp this with ⟨⟨a', b', ty''⟩, hm2, hp⟩
      cases hp
      exact ⟨ty'', hm2⟩
  rcases edges_addEdge_pairs g s t ty with ⟨hm, hpm⟩ | ⟨he, hpm⟩
  · rw [hmap _ _ hm]
    constructor
    · exact Or.inl
    · rintro (hp | ⟨rfl, rfl⟩)
      · exact hp
      · exact hpm
  · rw [he]
    unfold PairMem
    constructor
    · rintro ⟨ty', hm⟩
      rcases List.mem_append.mp hm with hl | hr
      · exact Or.inl ⟨ty', hl⟩
      · simp only [List.mem_singleton, Prod.mk.injEq] at hr
        exact Or.inr ⟨hr.1, hr.2.1⟩
    · rintro (⟨ty', hm⟩ | ⟨rfl, rfl⟩)
      · exact ⟨ty', List.mem_append_left _ hm⟩
      · exact ⟨ty, List.mem_append_right _ (by simp)⟩

/-! ## Build invariants -/

/-- The node-insertion phase of `GraphBuilder.build`. -/
def buildNodes (ns : List Node) (g : Graph) : Graph :=
  ns.foldl (fun g n => g.addNode n.id n.dump) g

/-- The edge-insertion phase of `GraphBuilder.build`. -/
def buildEdges (es : List Edge) (g : Graph) : Graph :=
  es.foldl (fun g e => g.addEdge e.source e.target e.type) g

theorem build_eq (ns : List Node) (es : List Edge) :
    GraphBuilder.build ns es = buildEdges es (buildNodes ns Graph.empty) := rfl

theorem edges_buildNodes (ns : List Node) (g : Graph) :
    (buildNodes ns g).edges = g.edges := by
  induction ns generalizing g with
  | nil => rfl
  | cons n ns ih => rw [buildNodes, List.foldl_cons, ← buildNodes, ih, Graph.edges_addNode]

theorem dataOf_buildNodes (ns : List Node) (g : Graph) (i : String) :
    (buildNodes ns g).dataOf i =
      match ns.reverse.find? (fun m => m.id == i) with
      | some n => some n.dump
      | none => g.dataOf i := by
  induction ns generalizing g with
  | nil => rfl
  | cons n ns ih =>
    rw [buildNodes, List.foldl_cons, ← buildNodes, ih, List.reverse_cons, List.find?_append]
    cases hfind : ns.reverse.find? (fun m => m.id == i) with
    | some m => rfl
    | none =>
      show (g.addNode n.id n.dump).dataOf i =
        match [n].find? (fun m => m.id == i) with
        | some n => some n.dump
        | none => g.dataOf i
      by_cases hid : n.id = i
      · rw [List.find?_cons_of_pos _ (by simp [hid]), ← hid, Graph.dataOf_addNode_self]
      · rw [List.find?_cons_of_neg _ (by simp [hid]), List.find?_nil]
        exact Graph.dataOf_addNode_other (fun he => hid he.symm)

theorem mem_nodeIds_buildNodes {ns : List Node} {g : Graph} {x : String} :
    x ∈ (buildNodes ns g).nodeIds ↔ x ∈ g.nodeIds ∨ ∃ n ∈ ns, n.id = x := by
  induction ns generalizing g with
  | nil => simp [buildNodes]
  | cons n ns ih =>
    rw [buildNodes, List.foldl_cons, ← buildNodes, ih, Graph.mem_nodeIds_addNode]
    constructor
    · rintro ((hg | rfl) | hns)
      · exact Or.inl hg
      · exact Or.inr ⟨n, List.mem_cons_self n ns, rfl⟩
      · rcases hns with ⟨m, hm, hid⟩
        exact Or.inr ⟨m, List.mem_cons_of_mem n hm, hid⟩
    · rintro (hg | ⟨m, hm, hid⟩)
      · exact Or.inl (Or.inl hg)
      · rcases List.mem_cons.mp hm with rfl | hmm
        · exact Or.inl (Or.inr hid.symm)
        · exact Or.inr ⟨m, hmm, hid⟩

theorem nodup_nodeIds_buildNodes (ns : List Node) (g : Graph)
    (h : g.nodeIds.Nodup) : (buildNodes ns g).nodeIds.Nodup := by
  induction ns generalizing g with
  | nil => exact h
  | cons n ns ih =>
    rw [buildNodes, List.foldl_cons, ← buildNodes]
    exact ih _ (Graph.nodup_nodeIds_addNode _ h)

theorem mem_nodeIds_buildEdges_of_mem {es : List Edge} {g : Graph} {x : String}
    (h : x ∈ g.nodeIds) : x ∈ (buildEdges es g).nodeIds := by
  induction es generalizing g with
  | nil => exact h
  | cons e es ih =>
    rw [buildEdges, List.foldl_cons, ← buildEdges]
    exact ih (Graph.mem_nodeIds_addEdge.mpr (Or.inl h))

theorem mem_nodeIds_buildEdges {es : List Edge} {g : Graph} {x : String} :
    x ∈ (buildEdges es g).nodeIds ↔
      x ∈ g.nodeIds ∨ ∃ e ∈ es, e.source = x ∨ e.target = x := by
  induction es generalizing g with
  | nil => simp [buildEdges]
  | cons e es ih =>
    rw [buildEdges, List.foldl_cons, ← buildEdges, ih, Graph.mem_nodeIds_addEdge]
    constructor
    · rintro ((hg | rfl | rfl) | hes)
      · exact Or.inl hg
      · exact Or.inr ⟨e, List.mem_cons_self e es, Or.inl rfl⟩
      · exact Or.inr ⟨e, List.mem_cons_self e es, Or.inr rfl⟩
      · rcases hes with ⟨f, hf, hx⟩
        exact Or.inr ⟨f, List.mem_cons_of_mem e hf, hx⟩
    · rintro (hg | ⟨f, hf, hx⟩)
      · exact Or.inl (Or.inl hg)
      · rcases List.mem_cons.mp hf with rfl | hff
        · rcases hx with rfl | rfl
          · exact Or.inl (Or.inr (Or.inl rfl))
          · exact Or.inl (Or.inr (Or.inr rfl))
        · exact Or.inr ⟨f, hff, hx⟩

theorem nodup_nodeIds_buildEdges (es : List Edge) (g : Graph)
    (h : g.nodeIds.Nodup) : (buildEdges es g).nodeIds.Nodup := by
  induction es generalizing g with
  | nil => exact h
  | cons e es ih =>
    rw [buildEdges, List.foldl_cons, ← buildEdges]
    exact ih _ (Graph.nodup_nodeIds_addEdge h)

theorem dataOf_buildEdges_of_mem {es : List Edge} {g : Graph} {x : String}
    (h : x ∈ g.nodeIds) : (buildEdges es g).dataOf x = g.dataOf x := by
  induction es generalizing g with
  | nil => rfl
  | cons e es ih =>
    rw [buildEdges, List.foldl_cons, ← buildEdges,
      ih (Graph.mem_nodeIds_addEdge.mpr (Or.inl h)), Graph.dataOf_addEdge_of_mem h]

theorem dataOf_buildEdges_placeholder {es : List Edge} {g : Graph} {x : String}
    (h : g.dataOf x = none ∨ g.dataOf x = some placeholderData) :
    (buildEdges es g).dataOf x = none ∨
      (buildEdges es g).dataOf x = some placeholderData := by
  induction es generalizing g with
  | nil => exact h
  | cons e es ih =>
    rw [buildEdges, List.foldl_cons, ← buildEdges]
    apply ih
    have e1 : (g.addEdge e.source e.target e.type).dataOf x =
        ((g.ensureNode e.source).ensureNode e.target).dataOf x := by
      unfold Graph.dataOf
      rw [Graph.nodes_addEdge]
    rw [e1]
    exact Graph.dataOf_ensureNode_placeholder (Graph.dataOf_ensureNode_placeholder h)

theorem pairMem_buildEdges_persist {es : List Edge} {g : Graph} {a b : String}
    (h : PairMem g.edges a b) : PairMem (buildEdges es g).edges a b := by
  induction es generalizing g with
  | nil => exact h
  | cons e es ih =>
    rw [buildEdges, List.foldl_cons, ← buildEdges]
    exact ih (pairMem_addEdge.mpr (Or.inl h))

theorem pairMem_buildEdges_of_mem {es : List Edge} {g : Graph} {e : Edge}
    (h : e ∈ es) : PairMem (buildEdges es g).edges e.source e.target := by
  induction es generalizing g with
  | nil => simp at h
  | cons f es ih =>
    rw [buildEdges, List.foldl_cons, ← buildEdges]
    rcases List.mem_cons.mp h with rfl | hf
    · exact pairMem_buildEdges_persist (pairMem_addEdge.mpr (Or.inr ⟨rfl, rfl⟩))
    · exact ih hf

theorem pairMem_buildEdges {es : List Edge} {g : Graph} {a b : String} :
    PairMem (buildEdges es g).edges a b ↔
      PairMem g.edges a b ∨ ∃ e ∈ es, e.source = a ∧ e.target = b := by
  induction es generalizing g with
  | nil => simp [buildEdges]
  | cons e es ih =>
    rw [buildEdges, List.foldl_cons, ← buildEdges, ih, pairMem_addEdge]
    constructor
    · rintro ((hg | ⟨rfl, rfl⟩) | hes)
      · exact Or.inl hg
      · exact Or.inr ⟨e, List.mem_cons_self e es, rfl, rfl⟩
      · rcases hes with ⟨f, hf, hx⟩
        exact Or.inr ⟨f, List.mem_cons_of_mem e hf, hx⟩
    · rintro (hg | ⟨f, hf, hx⟩)
      · exact Or.inl (Or.inl hg)
      · rcases List.mem_cons.mp hf with rfl | hff
        · exact Or.inl (Or.inr ⟨hx.1.symm, hx.2.symm⟩)
        · exact Or.inr ⟨f, hff, hx⟩

/-! ## Correctness of the layering model -/

theorem length_filter_lt {l : List α} {p : α → Bool} {x : α}
    (hx : x ∈ l) (hp : ¬ p x = true) : (l.filter p).length < l.length := by
  induction l with
  | nil => simp at hx
  | cons a l ih =>
    rcases List.mem_cons.mp hx with rfl | hxl
    · rw [List.filter_cons_of_neg (by simpa using hp)]
      exact Nat.lt_succ_of_le (List.length_filter_le p l)
    · by_cases ha : p a = true
      · rw [List.filter_cons_of_pos ha]
        exact Nat.succ_lt_succ (ih hxl)
      · rw [List.filter_cons_of_neg (by simpa using ha)]
        exact Nat.lt_succ_of_le (List.length_filter_le p l)

/-- A successful layering partitions exactly the ids it was given. -/
theorem topoAux_ok_perm {edges : List (String × String × String)} :
    ∀ {fuel : Nat} {remaining : List String} {ls : List (List String)},
    topoAux edges fuel remaining = .ok ls → ls.flatten.Perm remaining := by
  intro fuel
  induction fuel with
  | zero =>
    intro remaining ls h
    rw [topoAux] at h
    by_cases he : remaining.isEmpty
    · rw [if_pos he] at h
      cases h
      rw [List.isEmpty_iff] at he
      rw [he]
      exact List.Perm.refl _
    · rw [if_neg he] at h
      cases h
  | succ fuel ih =>
    intro remaining ls h
    rw [topoAux] at h
    by_cases he : remaining.isEmpty
    · rw [if_pos he] at h
      cases h
      rw [List.isEmpty_iff] at he
      rw [he]
      exact List.Perm.refl _
    · rw [if_neg he] at h
      by_cases hlay : (remaining.filter (fun v => !hasIncomingFrom edges remaining v)).isEmpty
      · rw [if_pos hlay] at h
        cases h
      · rw [if_neg hlay] at h
        cases hrec : topoAux edges fuel
            (remaining.filter (fun v => hasIncomingFrom edges remaining v)) with
        | ok ls' =>
          rw [hrec] at h
          cases h
          have hperm := ih hrec
          rw [List.flatten_cons]
          have p1 : (remaining.filter (fun v => !hasIncomingFrom edges remaining v) ++
              ls'.flatten).Perm
              (remaining.filter (fun v => !hasIncomingFrom edges remaining v) ++
               remaining.filter (fun v => hasIncomingFrom edges remaining v)) :=
            List.Perm.append_left _ hperm
          have p2 : (remaining.filter (fun v => !hasIncomingFrom edges remaining v) ++
              remaining.filter (fun v => hasIncomingFrom edges remaining v)).Perm
              (remaining.filter (fun v => hasIncomingFrom edges remaining v) ++
               remaining.filter (fun v => !hasIncomingFrom edges remaining v)) :=
            List.perm_append_comm
          have p3 : (remaining.filter (fun v => hasIncomingFrom edges remaining v) ++
              remaining.filter (fun v => !hasIncomingFrom edges remaining v)).Perm remaining :=
            List.filter_append_perm _ remaining
          exact (p1.trans p2).trans p3
        | error r =>
          rw [hrec] at h
          cases h

/-- Within a successful layering, every edge between layered ids goes
from a strictly earlier layer to a strictly later one. -/
theorem topoAux_ok_mono {edges : List (String × String × String)} :
    ∀ {fuel : Nat} {remaining : List String} {ls : List (List String)}
      {s t : String} {i j : Nat} {Li Lj : List String},
    topoAux edges fuel remaining = .ok ls →
    hasEdge edges s t = true →
    ls[i]? = some Li → ls[j]? = some Lj →
    s ∈ Li → t ∈ Lj → i < j := by
  intro fuel
  induction fuel with
  | zero =>
    intro remaining ls s t i j Li Lj h hedge hi hj hs ht
    rw [topoAux] at h
    by_cases he : remaining.isEmpty
    · rw [if_pos he] at h
      cases h
      exact absurd hi (by simp)
    · rw [if_neg he] at h
      cases h
  | succ fuel ih =>
    intro remaining ls s t i j Li Lj h hedge hi hj hs ht
    rw [topoAux] at h
    by_cases he : remaining.isEmpty
    · rw [if_pos he] at h
      cases h
      exact absurd hi (by simp)
    · rw [if_neg he] at h
      by_cases hlay : (remaining.filter (fun v => !hasIncomingFrom edges remaining v)).isEmpty
      · rw [if_pos hlay] at h
        cases h
      · rw [if_neg hlay] at h
        cases hrec : topoAux edges fuel
            (remaining.filter (fun v => hasIncomingFrom edges remaining v)) with
        | ok ls' =>
          rw [hrec] at h
          cases h
          have hjoin := topoAux_ok_perm hrec
          have mem_rest : ∀ {k : Nat} {L : List String} {x : String},
              ls'[k]? = some L → x ∈ L →
              x ∈ remaining.filter (fun v => hasIncomingFrom edges remaining v) := by
            intro k L x hk hx
            exact hjoin.mem_iff.mp (List.mem_flatten.mpr ⟨L, List.getElem?_mem hk, hx⟩)
          have not_layer0 : ∀ {x y : String}, hasEdge edges x y = true →
              x ∈ remaining → ¬ y ∈ remaining.filter
                (fun v => !hasIncomingFrom edges remaining v) := by
            intro x y hxy hxr hy
            have h1 := List.of_mem_filter hy
            have h2 : hasIncomingFrom edges remaining y = true := by
              unfold hasEdge at hxy
              rcases List.any_eq_true.mp hxy with ⟨e, hem, hep⟩
              simp only [Bool.and_eq_true, beq_iff_eq] at hep
              unfold hasIncomingFrom
              refine List.any_eq_true.mpr ⟨e, hem, ?_⟩
              simp only [Bool.and_eq_true, beq_iff_eq]
              exact ⟨by rw [hep.1]; exact List.elem_iff.mpr hxr, hep.2⟩
            rw [h2] at h1
            simp at h1
          cases i with
          | zero =>
            cases j with
            | zero =>
              rw [List.getElem?_cons_zero] at hi hj
              cases hi; cases hj
              have hs' : s ∈ remaining := List.mem_of_mem_filter hs
              exact absurd ht (not_layer0 hedge hs')
            | succ j' => exact Nat.succ_pos j'
          | succ i' =>
            cases j with
            | zero =>
              rw [List.getElem?_cons_succ] at hi
              rw [List.getElem?_cons_zero] at hj
              cases hj
              have hs' : s ∈ remaining :=
                List.mem_of_mem_filter (mem_rest hi hs)
              exact absurd ht (not_layer0 hedge hs')
            | succ j' =>
              rw [List.getElem?_cons_succ] at hi hj
              exact Nat.succ_lt_succ (ih hrec hedge hi hj hs ht)
        | error r =>
          rw [hrec] at h
          cases h

/-- A failed layering reports a nonempty stuck set in which every id
has an incoming edge from the set (given enough fuel). -/
theorem topoAux_error_stuck {edges : List (String × String × String)} :
    ∀ {fuel : Nat} {remaining : List String} {R : List String},
    remaining.length ≤ fuel →
    topoAux edges fuel remaining = .error R →
    R ≠ [] ∧ ∀ v ∈ R, hasIncomingFrom edges R v = true := by
  intro fuel
  induction fuel with
  | zero =>
    intro remaining R hlen h
    rw [topoAux] at h
    have he : remaining.isEmpty := by
      cases remaining with
      | nil => rfl
      | cons a l => simp at hlen
    rw [if_pos he] at h
    cases h
  | succ fuel ih =>
    intro remaining R hlen h
    rw [topoAux] at h
    by_cases he : remaining.isEmpty
    · rw [if_pos he] at h
      cases h
    · rw [if_neg he] at h
      by_cases hlay : (remaining.filter (fun v => !hasIncomingFrom edges remaining v)).isEmpty
      · rw [if_pos hlay] at h
        cases h
        refine ⟨fun hnil => he (by rw [hnil]; rfl), ?_⟩
        intro v hv
        rw [List.isEmpty_iff] at hlay
        by_contra hnin
        have hmem : v ∈ remaining.filter (fun v => !hasIncomingFrom edges remaining v) := by
          refine List.mem_filter.mpr ⟨hv, ?_⟩
          cases hbool : hasIncomingFrom edges remaining v
          · rfl
          · exact absurd hbool hnin
        rw [hlay] at hmem
        simp at hmem
      · rw [if_neg hlay] at h
        cases hrec : topoAux edges fuel
            (remaining.filter (fun v => hasIncomingFrom edges remaining v)) with
        | ok ls' =>
          rw [hrec] at h
          cases h
        | error r =>
          rw [hrec] at h
          cases h
          have hx : ∃ x ∈ remaining,
              ¬ (fun v => hasIncomingFrom edges remaining v) x = true := by
            rw [List.isEmpty_iff] at hlay
            cases hne : remaining.filter (fun v => !hasIncomingFrom edges remaining v) with
            | nil => exact absurd hne hlay
            | cons a l =>
              have ha : a ∈ remaining.filter
                  (fun v => !hasIncomingFrom edges remaining v) := by
                rw [hne]; exact List.mem_cons_self a l
              refine ⟨a, List.mem_of_mem_filter ha, ?_⟩
              have := List.of_mem_filter ha
              simpa using this
          rcases hx with ⟨x, hxm, hxp⟩
          exact ih (Nat.le_of_lt_succ (Nat.lt_of_lt_of_le
            (length_filter_lt hxm hxp) hlen)) hrec

/-- Ids that all have a predecessor among themselves are never peeled,
so the layering on any superset of them fails. -/
theorem topoAux_error_of_pred_closed {edges : List (String × String × String)}
    {c : List String} (hc : c ≠ [])
    (hpred : ∀ v ∈ c, ∃ u ∈ c, hasEdge edges u v = true) :
    ∀ {fuel : Nat} {remaining : List String},
    (∀ v ∈ c, v ∈ remaining) →
    ∃ R, topoAux edges fuel remaining = .error R := by
  have hnonempty : ∀ {remaining : List String},
      (∀ v ∈ c, v ∈ remaining) → ¬ remaining.isEmpty = true := by
    intro remaining hsub hemp
    cases c with
    | nil => exact hc rfl
    | cons a l =>
      have := hsub a (List.mem_cons_self a l)
      rw [List.isEmpty_iff] at hemp
      rw [hemp] at this
      simp at this
  intro fuel
  induction fuel with
  | zero =>
    intro remaining hsub
    rw [topoAux, if_neg (hnonempty hsub)]
    exact ⟨remaining, rfl⟩
  | succ fuel ih =>
    intro remaining hsub
    rw [topoAux, if_neg (hnonempty hsub)]
    by_cases hlay : (remaining.filter (fun v => !hasIncomingFrom edges remaining v)).isEmpty
    · rw [if_pos hlay]
      exact ⟨remaining, rfl⟩
    · rw [if_neg hlay]
      have hsub' : ∀ v ∈ c,
          v ∈ remaining.filter (fun v => hasIncomingFrom edges remaining v) := by
        intro v hv
        refine List.mem_filter.mpr ⟨hsub v hv, ?_⟩
        rcases hpred v hv with ⟨u, hu, hedge⟩
        unfold hasEdge at hedge
        rcases List.any_eq_true.mp hedge with ⟨e, hem, hep⟩
        simp only [Bool.and_eq_true, beq_iff_eq] at hep
        unfold hasIncomingFrom
        refine List.any_eq_true.mpr ⟨e, hem, ?_⟩
        simp only [Bool.and_eq_true, beq_iff_eq]
        exact ⟨by rw [hep.1]; exact List.elem_iff.mpr (hsub u hu), hep.2⟩
      rcases ih hsub' with ⟨R, hR⟩
      rw [hR]
      exact ⟨R, rfl⟩

/-! ## Correctness of the cycle extraction -/

theorem predIn_spec {edges : List (String × String × String)} {R : List String}
    (hstuck : ∀ v ∈ R, hasIncomingFrom edges R v = true) {v : String} (hv : v ∈ R) :
    predIn edges R v ∈ R ∧ hasEdge edges (predIn edges R v) v = true := by
  have hex : ∃ u, u ∈ R ∧ hasEdge edges u v = true := by
    have hin := hstuck v hv
    unfold hasIncomingFrom at hin
    rcases List.any_eq_true.mp hin with ⟨e, hem, hep⟩
    simp only [Bool.and_eq_true, beq_iff_eq] at hep
    refine ⟨e.1, ?_, ?_⟩
    · have : R.elem e.1 = true := hep.1
      exact List.elem_iff.mp this
    · unfold hasEdge
      refine List.any_eq_true.mpr ⟨e, hem, ?_⟩
      simp [hep.2]
  have hsome : (R.find? (fun u => hasEdge edges u v)).isSome := by
    rw [List.find?_isSome]
    exact hex
  cases hfind : R.find? (fun u => hasEdge edges u v) with
  | none => rw [hfind] at hsome; simp at hsome
  | some u =>
    have h1 : u ∈ R := List.mem_of_find?_eq_some hfind
    have h2 := List.find?_some hfind
    unfold predIn
    rw [hfind]
    exact ⟨h1, h2⟩

theorem contains_iff_memStr {l : List String} {a : String} :
    l.contains a = true ↔ a ∈ l := List.elem_iff

theorem dropWhile_ne_eq_cons {cur : String} {path : List String} (h : cur ∈ path) :
    ∃ suffix, path.dropWhile (fun y => !(y == cur)) = cur :: suffix := by
  induction path with
  | nil => simp at h
  | cons x rest ih =>
    by_cases hx : x = cur
    · subst hx
      refine ⟨rest, ?_⟩
      rw [List.dropWhile_cons]
      simp
    · rw [List.dropWhile_cons]
      have hp : (!(x == cur)) = true := by simp [hx]
      rw [if_pos hp]
      exact ih (by rcases List.mem_cons.mp h with rfl | hm
                   · exact absurd rfl hx
                   · exact hm)

theorem chain_pred_to_edge {edges : List (String × String × String)} {R : List String}
    {pred : String → String}
    (hpredE : ∀ v ∈ R, hasEdge edges (pred v) v = true) :
    ∀ {l : List String}, (∀ x ∈ l, x ∈ R) →
    List.Chain' (fun a b => a = pred b) l →
    List.Chain' (fun a b => hasEdge edges a b = true) l := by
  intro l
  induction l with
  | nil => intro _ _; exact List.chain'_nil
  | cons a t ih =>
    intro hsub hchain
    cases t with
    | nil => exact List.chain'_singleton a
    | cons b t' =>
      rw [List.chain'_cons] at hchain ⊢
      refine ⟨?_, ih (fun x hx => hsub x (List.mem_cons_of_mem a hx)) hchain.2⟩
      rw [hchain.1]
      exact hpredE b (hsub b (List.mem_cons_of_mem a (List.mem_cons_self b t')))

theorem getLast?_cons_eq_getLastD {α : Type} (a d : α) (l : List α) :
    (a :: l).getLast? = some ((a :: l).getLastD d) := by
  induction l generalizing a with
  | nil => rfl
  | cons b l ih => rw [List.getLast?_cons_cons, ih b]; simp [List.getLastD_cons]

/-- The walk through a stuck set always closes into a genuine cycle. -/
theorem walkToCycle_spec {edges : List (String × String × String)} {R : List String}
    {pred : String → String}
    (hpredR : ∀ v ∈ R, pred v ∈ R)
    (hpredE : ∀ v ∈ R, hasEdge edges (pred v) v = true) :
    ∀ (fuel : Nat) (path : List String), path ≠ [] →
    (∀ x ∈ path, x ∈ R) → path.Nodup →
    List.Chain' (fun a b => a = pred b) path →
    R.length + 1 ≤ fuel + path.length →
    walkToCycle pred fuel path ≠ [] ∧
    List.Chain' (fun a b => hasEdge edges a b = true) (walkToCycle pred fuel path) ∧
    hasEdge edges ((walkToCycle pred fuel path).getLastD "")
      ((walkToCycle pred fuel path).headD "") = true := by
  intro fuel
  induction fuel with
  | zero =>
    intro path hne hsub hnodup _ hlen
    have hle : path.length ≤ R.length :=
      (List.Nodup.subperm hnodup (fun x hx => hsub x hx)).length_le
    omega
  | succ fuel ih =>
    intro path hne hsub hnodup hchain hlen
    cases path with
    | nil => exact absurd rfl hne
    | cons x rest =>
      rw [walkToCycle]
      by_cases hcont : (x :: rest).contains (pred x) = true
      · rw [if_pos hcont]
        have hmem : pred x ∈ x :: rest := contains_iff_memStr.mp hcont
        have hxR : x ∈ R := hsub x (List.mem_cons_self x rest)
        have hpxR : pred x ∈ R := hpredR x hxR
        -- the result is a prefix of `pred x :: x :: rest`, whose chain holds
        have hchainfull : List.Chain' (fun a b => a = pred b) (pred x :: x :: rest) :=
          List.chain'_cons.mpr ⟨rfl, hchain⟩
        have hsplitpre : ∃ suf,
            (pred x :: (x :: rest).takeWhile (fun y => !(y == pred x))) ++ suf
              = pred x :: x :: rest := by
          rcases (show ((x :: rest).takeWhile (fun y => !(y == pred x)) <+: (x :: rest)) from
            List.takeWhile_prefix _) with ⟨suf, hsuf⟩
          exact ⟨suf, by rw [List.cons_append, hsuf]⟩
        have hsubc : ∀ y ∈ pred x :: (x :: rest).takeWhile (fun y => !(y == pred x)), y ∈ R := by
          intro y hy
          rcases List.mem_cons.mp hy with rfl | hy'
          · exact hpxR
          · refine hsub y ?_
            rcases (show ((x :: rest).takeWhile (fun y => !(y == pred x)) <+: (x :: rest)) from
              List.takeWhile_prefix _) with ⟨suf, hsuf⟩
            rw [← hsuf]
            exact List.mem_append_left _ hy'
        refine ⟨by simp, ?_, ?_⟩
        · refine chain_pred_to_edge hpredE hsubc ?_
          rcases hsplitpre with ⟨suf, hsuf⟩
          have h2 := hchainfull
          rw [← hsuf] at h2
          exact (List.chain'_append.mp h2).1
        · -- closure edge from the last walked id back to the repeated id
          cases htw : (x :: rest).takeWhile (fun y => !(y == pred x)) with
          | nil =>
            -- the very first id already repeats: a self-loop
            have hpx : x = pred x := by
              rw [List.takeWhile_cons] at htw
              by_cases hxx : (!(x == pred x)) = true
              · rw [if_pos hxx] at htw; simp at htw
              · have hbeq : (x == pred x) = true := by
                  revert hxx; cases x == pred x <;> simp
                exact eq_of_beq hbeq
            have := hpredE x hxR
            rw [← hpx] at this
            simpa [← hpx] using this
          | cons t0 tw' =>
            -- decompose the path around the first occurrence of `pred x`
            rcases dropWhile_ne_eq_cons hmem with ⟨suffix, hdrop⟩
            have hsplit : x :: rest =
                (x :: rest).takeWhile (fun y => !(y == pred x)) ++ pred x :: suffix := by
              rw [← hdrop, List.takeWhile_append_dropWhile]
            have hchainsplit := hchain
            rw [hsplit, List.chain'_append] at hchainsplit
            have hlink := hchainsplit.2.2
            rw [htw] at hlink
            have hlast : (t0 :: tw').getLast? = some ((t0 :: tw').getLastD "") :=
              getLast?_cons_eq_getLastD t0 "" tw'
            have hrel : (t0 :: tw').getLastD "" = pred (pred x) := by
              have := hlink ((t0 :: tw').getLastD "") (by rw [hlast]; rfl) (pred x) rfl
              exact this
            show hasEdge edges ((pred x :: t0 :: tw').getLastD "")
              ((pred x :: t0 :: tw').headD "") = true
            have hgl : (pred x :: t0 :: tw').getLastD "" = (t0 :: tw').getLastD "" := by
              simp [List.getLastD_cons]
            rw [hgl, hrel]
            show hasEdge edges (pred (pred x)) (pred x) = true
            exact hpredE (pred x) hpxR
      · rw [if_neg hcont]
        have hxR : x ∈ R := hsub x (List.mem_cons_self x rest)
        refine ih (pred x :: x :: rest) (by simp) ?_ ?_ ?_ ?_
        · intro y hy
          rcases List.mem_cons.mp hy with rfl | hy'
          · exact hpredR x hxR
          · exact hsub y hy'
        · refine List.nodup_cons.mpr ⟨?_, hnodup⟩
          intro hmem
          exact hcont (contains_iff_memStr.mpr hmem)
        · exact List.chain'_cons.mpr ⟨rfl, hchain⟩
        · simp only [List.length_cons] at hlen ⊢
          omega

/-- The cycle found in a nonempty stuck set is a genuine cycle of the
edge list. -/
theorem findCycleIn_spec {edges : List (String × String × String)} {R : List String}
    (hne : R ≠ []) (hstuck : ∀ v ∈ R, hasIncomingFrom edges R v = true) :
    findCycleIn edges R ≠ [] ∧
    List.Chain' (fun a b => hasEdge edges a b = true) (findCycleIn edges R) ∧
    hasEdge edges ((findCycleIn edges R).getLastD "")
      ((findCycleIn edges R).headD "") = true := by
  cases R with
  | nil => exact absurd rfl hne
  | cons x R' =>
    unfold findCycleIn
    have hpredR : ∀ v ∈ x :: R', predIn edges (x :: R') v ∈ x :: R' :=
      fun v hv => (predIn_spec hstuck hv).1
    have hpredE : ∀ v ∈ x :: R',
        hasEdge edges (predIn edges (x :: R') v) v = true :=
      fun v hv => (predIn_spec hstuck hv).2
    have hsub1 : ∀ y ∈ [x], y ∈ x :: R' := by
      intro y hy
      rw [List.mem_singleton] at hy
      subst hy
      exact List.mem_cons_self y R'
    exact walkToCycle_spec hpredR hpredE ((x :: R').length + 1) [x]
      (by simp) hsub1 (List.nodup_singleton x) (List.chain'_singleton x) (by simp)

/-! ## The layering entry point, assembled -/

theorem topoGenerations_def (g : Graph) :
    topoGenerations g =
      topoAux g.edges (sortIds g.nodeIds).length (sortIds g.nodeIds) := rfl

theorem get_analysis_layers_of_ok {g : Graph} {ls : List (List String)}
    (h : topoGenerations g = .ok ls) : get_analysis_layers g = .ok ls := by
  unfold get_analysis_layers
  rw [h]

theorem get_analysis_layers_of_error {g : Graph} {R : List String}
    (h : topoGenerations g = .error R) :
    get_analysis_layers g =
      .error (.circular (cycleMessage (findCycleIn g.edges R))) := by
  unfold get_analysis_layers
  rw [h]

/-- When the layering fails, the cycle extracted from the stuck set is a
genuine cycle of the graph — so a failed layering always exhibits a
cycle. -/
theorem isCycle_findCycleIn_of_error {g : Graph} {R : List String}
    (h : topoGenerations g = .error R) : IsCycle g (findCycleIn g.edges R) := by
  rw [topoGenerations_def] at h
  have hstuck := topoAux_error_stuck (Nat.le_refl _) h
  have hspec := findCycleIn_spec hstuck.1 hstuck.2
  exact ⟨hspec.1, hspec.2.1, hspec.2.2⟩

theorem hasCycle_of_topoGenerations_error {g : Graph} {R : List String}
    (h : topoGenerations g = .error R) : HasCycle g :=
  ⟨findCycleIn g.edges R, isCycle_findCycleIn_of_error h⟩

/-- Every member of a cycle has a predecessor within the cycle. -/
theorem chain'_rel_of_mem_tail {α : Type} {r : α → α → Prop} :
    ∀ {a v : α} {t : List α}, List.Chain' r (a :: t) → v ∈ t →
    ∃ u ∈ a :: t, r u v := by
  intro a v t
  induction t generalizing a with
  | nil => intro _ hv; simp at hv
  | cons b t' ih =>
    intro hchain hv
    rw [List.chain'_cons] at hchain
    rcases List.mem_cons.mp hv with rfl | hv'
    · exact ⟨a, List.mem_cons_self a (v :: t'), hchain.1⟩
    · rcases ih hchain.2 hv' with ⟨u, hu, hr⟩
      exact ⟨u, List.mem_cons_of_mem a hu, hr⟩

theorem isCycle_pred_closed {g : Graph} {c : List String} (hc : IsCycle g c) :
    ∀ v ∈ c, ∃ u ∈ c, hasEdge g.edges u v = true := by
  rcases hc with ⟨hne, hchain, hclose⟩
  intro v hv
  cases c with
  | nil => exact absurd rfl hne
  | cons a t =>
    rcases List.mem_cons.mp hv with rfl | hv'
    · refine ⟨(v :: t).getLastD "", ?_, ?_⟩
      · rw [List.getLastD_eq_getLast?, getLast?_cons_eq_getLastD v ""]
        have : (v :: t).getLast? = some ((v :: t).getLastD "") :=
          getLast?_cons_eq_getLastD v "" t
        cases hg : (v :: t).getLast? with
        | none => rw [hg] at this; cases this
        | some u =>
          rw [hg] at this
          cases this
          have := List.mem_of_getLast?_eq_some hg
          simpa using this
      · exact hclose
    · exact chain'_rel_of_mem_tail hchain hv'

/-- In an edge-closed graph every cycle runs through declared node ids. -/
theorem isCycle_subset_nodeIds {g : Graph} {c : List String}
    (hclosed : ∀ e ∈ g.edges, e.1 ∈ g.nodeIds ∧ e.2.1 ∈ g.nodeIds)
    (hc : IsCycle g c) : ∀ v ∈ c, v ∈ g.nodeIds := by
  intro v hv
  rcases isCycle_pred_closed hc v hv with ⟨u, _, hedge⟩
  unfold hasEdge at hedge
  rcases List.any_eq_true.mp hedge with ⟨e, hem, hep⟩
  simp only [Bool.and_eq_true, beq_iff_eq] at hep
  have := (hclosed e hem).2
  rw [hep.2] at this
  exact this

/-- A cyclic graph's layering fails (for closed graphs, whose cycles run
through the layered ids). -/
theorem topoGenerations_error_of_hasCycle {g : Graph}
    (hclosed : ∀ e ∈ g.edges, e.1 ∈ g.nodeIds ∧ e.2.1 ∈ g.nodeIds)
    (hcyc : HasCycle g) : ∃ R, topoGenerations g = .error R := by
  rcases hcyc with ⟨c, hc⟩
  rw [topoGenerations_def]
  refine topoAux_error_of_pred_closed hc.1 (isCycle_pred_closed hc) ?_
  intro v hv
  rw [mem_sortIds]
  exact isCycle_subset_nodeIds hclosed hc v hv

/-! ## Build invariants, assembled -/

theorem Graph.addEdge_closed {g : Graph} {s t ty : String}
    (h : ∀ e ∈ g.edges, e.1 ∈ g.nodeIds ∧ e.2.1 ∈ g.nodeIds) :
    ∀ e ∈ (g.addEdge s t ty).edges,
      e.1 ∈ (g.addEdge s t ty).nodeIds ∧ e.2.1 ∈ (g.addEdge s t ty).nodeIds := by
  intro e he
  rw [Graph.edges_addEdge_eq] at he
  unfold Graph.insertEdge at he
  have hmono : ∀ x, x ∈ g.nodeIds → x ∈ (g.addEdge s t ty).nodeIds :=
    fun x hx => Graph.mem_nodeIds_addEdge.mpr (Or.inl hx)
  have hst : s ∈ (g.addEdge s t ty).nodeIds ∧ t ∈ (g.addEdge s t ty).nodeIds :=
    ⟨Graph.mem_nodeIds_addEdge.mpr (Or.inr (Or.inl rfl)),
     Graph.mem_nodeIds_addEdge.mpr (Or.inr (Or.inr rfl))⟩
  by_cases hcond : g.edges.any (fun e => e.1 == s && e.2.1 == t) = true
  · rw [if_pos hcond] at he
    simp only at he
    rcases List.mem_map.mp he with ⟨e₀, he₀, hfe⟩
    by_cases hp : (e₀.1 == s && e₀.2.1 == t) = true
    · rw [if_pos hp] at hfe
      rw [← hfe]
      exact hst
    · rw [if_neg hp] at hfe
      rw [← hfe]
      exact ⟨hmono _ (h e₀ he₀).1, hmono _ (h e₀ he₀).2⟩
  · rw [if_neg hcond] at he
    simp only at he
    rcases List.mem_append.mp he with hl | hr
    · exact ⟨hmono _ (h e hl).1, hmono _ (h e hl).2⟩
    · rw [List.mem_singleton] at hr
      rw [hr]
      exact hst

theorem buildEdges_closed (es : List Edge) (g : Graph)
    (h : ∀ e ∈ g.edges, e.1 ∈ g.nodeIds ∧ e.2.1 ∈ g.nodeIds) :
    ∀ e ∈ (buildEdges es g).edges,
      e.1 ∈ (buildEdges es g).nodeIds ∧ e.2.1 ∈ (buildEdges es g).nodeIds := by
  induction es generalizing g with
  | nil => exact h
  | cons e es ih =>
    rw [buildEdges, List.foldl_cons, ← buildEdges]
    exact ih _ (Graph.addEdge_closed h)

theorem build_closed (ns : List Node) (es : List Edge) :
    ∀ e ∈ (GraphBuilder.build ns es).edges,
      e.1 ∈ (GraphBuilder.build ns es).nodeIds ∧
      e.2.1 ∈ (GraphBuilder.build ns es).nodeIds := by
  rw [build_eq]
  refine buildEdges_closed es (buildNodes ns Graph.empty) ?_
  intro e he
  rw [edges_buildNodes] at he
  simp [Graph.empty] at he

theorem build_nodup (ns : List Node) (es : List Edge) :
    (GraphBuilder.build ns es).nodeIds.Nodup := by
  rw [build_eq]
  refine nodup_nodeIds_buildEdges es _ (nodup_nodeIds_buildNodes ns _ ?_)
  simp [Graph.empty, Graph.nodeIds]

/-! ## Determinism of the layering under permuted aggregation -/

theorem hasIncomingFrom_eq_any {edges : List (String × String × String)}
    {R : List String} {v : String} :
    hasIncomingFrom edges R v = R.any (fun u => hasEdge edges u v) := by
  rw [Bool.eq_iff_iff, List.any_eq_true]
  unfold hasIncomingFrom
  rw [List.any_eq_true]
  constructor
  · rintro ⟨e, hem, hep⟩
    simp only [Bool.and_eq_true, beq_iff_eq] at hep
    refine ⟨e.1, List.elem_iff.mp hep.1, ?_⟩
    unfold hasEdge
    rw [List.any_eq_true]
    exact ⟨e, hem, by simp [hep.2]⟩
  · rintro ⟨u, hu, hedge⟩
    unfold hasEdge at hedge
    rcases List.any_eq_true.mp hedge with ⟨e, hem, hep⟩
    simp only [Bool.and_eq_true, beq_iff_eq] at hep
    refine ⟨e, hem, ?_⟩
    simp only [Bool.and_eq_true, beq_iff_eq]
    exact ⟨by rw [hep.1]; exact List.elem_iff.mpr hu, hep.2⟩

theorem any_congr {α : Type} {p q : α → Bool} (h : ∀ x, p x = q x) :
    ∀ (l : List α), l.any p = l.any q := by
  intro l
  induction l with
  | nil => rfl
  | cons a l ih => rw [List.any_cons, List.any_cons, h a, ih]

theorem hasIncomingFrom_congr {e₁ e₂ : List (String × String × String)}
    (he : ∀ u w, hasEdge e₁ u w = hasEdge e₂ u w) (R : List String) (v : String) :
    hasIncomingFrom e₁ R v = hasIncomingFrom e₂ R v := by
  rw [hasIncomingFrom_eq_any, hasIncomingFrom_eq_any]
  exact any_congr (fun u => he u v) R

theorem topoAux_congr {e₁ e₂ : List (String × String × String)}
    (he : ∀ u w, hasEdge e₁ u w = hasEdge e₂ u w) :
    ∀ (fuel : Nat) (R : List String), topoAux e₁ fuel R = topoAux e₂ fuel R := by
  intro fuel
  induction fuel with
  | zero => intro R; rfl
  | succ fuel ih =>
    intro R
    rw [topoAux, topoAux]
    have hfilter : R.filter (fun v => !hasIncomingFrom e₁ R v) =
        R.filter (fun v => !hasIncomingFrom e₂ R v) := by
      apply List.filter_congr
      intro v _
      rw [hasIncomingFrom_congr he]
    have hfilter' : R.filter (fun v => hasIncomingFrom e₁ R v) =
        R.filter (fun v => hasIncomingFrom e₂ R v) := by
      apply List.filter_congr
      intro v _
      rw [hasIncomingFrom_congr he]
    rw [hfilter, hfilter', ih]

theorem find?_congr {α : Type} {p q : α → Bool} (h : ∀ x, p x = q x) :
    ∀ (l : List α), l.find? p = l.find? q := by
  intro l
  induction l with
  | nil => rfl
  | cons a l ih =>
    by_cases ha : p a = true
    · rw [List.find?_cons_of_pos _ ha, List.find?_cons_of_pos _ (by rw [← h a]; exact ha)]
    · rw [List.find?_cons_of_neg _ ha, List.find?_cons_of_neg _ (by rw [← h a]; exact ha), ih]

theorem predIn_congr {e₁ e₂ : List (String × String × String)}
    (he : ∀ u w, hasEdge e₁ u w = hasEdge e₂ u w) (R : List String) (v : String) :
    predIn e₁ R v = predIn e₂ R v := by
  unfold predIn
  rw [find?_congr (fun u => he u v)]

theorem findCycleIn_congr {e₁ e₂ : List (String × String × String)}
    (he : ∀ u w, hasEdge e₁ u w = hasEdge e₂ u w) (R : List String) :
    findCycleIn e₁ R = findCycleIn e₂ R := by
  unfold findCycleIn
  cases R with
  | nil => rfl
  | cons x R' =>
    have hpred : predIn e₁ (x :: R') = predIn e₂ (x :: R') := by
      funext v
      exact predIn_congr he (x :: R') v
    rw [hpred]

/-- The layering result — layers or reported cycle alike — is a function
of the node-id set and the edge-pair relation only. -/
theorem get_analysis_layers_congr {g₁ g₂ : Graph}
    (hn : g₁.nodeIds.Perm g₂.nodeIds)
    (he : ∀ u w, hasEdge g₁.edges u w = hasEdge g₂.edges u w) :
    get_analysis_layers g₁ = get_analysis_layers g₂ := by
  have hsort : sortIds g₁.nodeIds = sortIds g₂.nodeIds := sortIds_eq_of_perm hn
  have htopo : topoGenerations g₁ = topoGenerations g₂ := by
    rw [topoGenerations_def, topoGenerations_def, hsort, topoAux_congr he]
  unfold get_analysis_layers
  rw [htopo]
  cases topoGenerations g₂ with
  | ok ls => rfl
  | error R =>
    show (Except.error (AnalysisError.circular (cycleMessage (findCycleIn g₁.edges R))) :
        Except AnalysisError (List (List String))) =
      Except.error (AnalysisError.circular (cycleMessage (findCycleIn g₂.edges R)))
    rw [findCycleIn_congr he]

theorem mem_nodeIds_build {ns : List Node} {es : List Edge} {x : String} :
    x ∈ (GraphBuilder.build ns es).nodeIds ↔
      (∃ n ∈ ns, n.id = x) ∨ ∃ e ∈ es, e.source = x ∨ e.target = x := by
  rw [build_eq, mem_nodeIds_buildEdges, mem_nodeIds_buildNodes]
  simp [Graph.empty, Graph.nodeIds]

theorem pairMem_build {ns : List Node} {es : List Edge} {a b : String} :
    PairMem (GraphBuilder.build ns es).edges a b ↔
      ∃ e ∈ es, e.source = a ∧ e.target = b := by
  rw [build_eq, pairMem_buildEdges]
  have hempty : (buildNodes ns Graph.empty).edges = [] := by
    rw [edges_buildNodes]
    rfl
  rw [hempty]
  simp [PairMem]

theorem hasEdge_build_congr {ns₁ es₁ ns₂ es₂} (he : es₁.Perm es₂) :
    ∀ u w, hasEdge (GraphBuilder.build ns₁ es₁).edges u w =
      hasEdge (GraphBuilder.build ns₂ es₂).edges u w := by
  intro u w
  rw [Bool.eq_iff_iff, hasEdge_iff, hasEdge_iff, pairMem_build, pairMem_build]
  constructor
  · rintro ⟨e, hm, hp⟩
    exact ⟨e, he.mem_iff.mp hm, hp⟩
  · rintro ⟨e, hm, hp⟩
    exact ⟨e, he.mem_iff.mpr hm, hp⟩

theorem nodeIds_build_perm {ns₁ es₁ ns₂ es₂} (hn : ns₁.Perm ns₂) (he : es₁.Perm es₂) :
    (GraphBuilder.build ns₁ es₁).nodeIds.Perm (GraphBuilder.build ns₂ es₂).nodeIds := by
  rw [List.perm_ext_iff_of_nodup (build_nodup ns₁ es₁) (build_nodup ns₂ es₂)]
  intro x
  rw [mem_nodeIds_build, mem_nodeIds_build]
  constructor
  · rintro (⟨n, hm, hp⟩ | ⟨e, hm, hp⟩)
    · exact Or.inl ⟨n, hn.mem_iff.mp hm, hp⟩
    · exact Or.inr ⟨e, he.mem_iff.mp hm, hp⟩
  · rintro (⟨n, hm, hp⟩ | ⟨e, hm, hp⟩)
    · exact Or.inl ⟨n, hn.mem_iff.mpr hm, hp⟩
    · exact Or.inr ⟨e, he.mem_iff.mpr hm, hp⟩

/-! ## Round-trip machinery -/

theorem mem_map_pairOf_iff {edges : List (String × String × String)} {a b : String} :
    (a, b) ∈ edges.map pairOf ↔ PairMem edges a b := by
  constructor
  · intro h
    rcases List.mem_map.mp h with ⟨⟨x, y, ty⟩, hm, hp⟩
    cases hp
    exact ⟨ty, hm⟩
  · rintro ⟨ty, hm⟩
    exact List.mem_map.mpr ⟨(a, b, ty), hm, rfl⟩

theorem pairs_nodup_addEdge {g : Graph} {s t ty : String}
    (h : (g.edges.map pairOf).Nodup) :
    ((g.addEdge s t ty).edges.map pairOf).Nodup := by
  rcases edges_addEdge_pairs g s t ty with ⟨hm, _⟩ | ⟨he, hpm⟩
  · rwa [hm]
  · rw [he, List.map_append]
    refine List.Nodup.append h (by simp [pairOf]) ?_
    intro x hx hy
    simp only [List.map_cons, List.map_nil, List.mem_singleton] at hy
    rw [hy] at hx
    exact hpm (mem_map_pairOf_iff.mp hx)

theorem pairs_nodup_buildEdges (es : List Edge) (g : Graph)
    (h : (g.edges.map pairOf).Nodup) :
    ((buildEdges es g).edges.map pairOf).Nodup := by
  induction es generalizing g with
  | nil => exact h
  | cons e es ih =>
    rw [buildEdges, List.foldl_cons, ← buildEdges]
    exact ih _ (pairs_nodup_addEdge h)

theorem build_pairs_nodup (ns : List Node) (es : List Edge) :
    ((GraphBuilder.build ns es).edges.map pairOf).Nodup := by
  rw [build_eq]
  refine pairs_nodup_buildEdges es _ ?_
  rw [edges_buildNodes]
  simp [Graph.empty]

theorem foldl_addNode_of_nodup :
    ∀ (l : List (String × NodeData)) (g : Graph),
    (g.nodeIds ++ l.map Prod.fst).Nodup →
    l.foldl (fun g kd => g.addNode kd.1 kd.2) g = ⟨g.nodes ++ l, g.edges⟩ := by
  intro l
  induction l with
  | nil =>
    intro g _
    show g = ⟨g.nodes ++ [], g.edges⟩
    rw [List.append_nil]
  | cons kd l ih =>
    intro g hnodup
    rw [List.foldl_cons]
    have hnotmem : ¬ kd.1 ∈ g.nodeIds := by
      intro hmem
      rcases List.nodup_append.mp hnodup with ⟨_, _, hdisj⟩
      exact hdisj hmem (by simp)
    have hstep : g.addNode kd.1 kd.2 = ⟨g.nodes ++ [kd], g.edges⟩ := by
      unfold Graph.addNode
      rw [if_neg (fun hc => hnotmem (keyAny_iff.mp hc))]
    rw [hstep, ih]
    · show (⟨(g.nodes ++ [kd]) ++ l, g.edges⟩ : Graph) = ⟨g.nodes ++ kd :: l, g.edges⟩
      rw [List.append_assoc, List.singleton_append]
    · show ((g.nodes ++ [kd]).map Prod.fst ++ l.map Prod.fst).Nodup
      rw [List.map_append]
      simpa [List.append_assoc] using hnodup

theorem foldl_addEdge_append :
    ∀ (l : List (String × String × String)) (g : Graph),
    (∀ e ∈ l, e.1 ∈ g.nodeIds ∧ e.2.1 ∈ g.nodeIds) →
    ((g.edges ++ l).map pairOf).Nodup →
    l.foldl (fun g e => g.addEdge e.1 e.2.1 e.2.2) g = ⟨g.nodes, g.edges ++ l⟩ := by
  intro l
  induction l with
  | nil =>
    intro g _ _
    show g = ⟨g.nodes, g.edges ++ []⟩
    rw [List.append_nil]
  | cons e l ih =>
    intro g hends hnodup
    rw [List.foldl_cons]
    have hs : e.1 ∈ g.nodeIds := (hends e (List.mem_cons_self e l)).1
    have ht : e.2.1 ∈ g.nodeIds := (hends e (List.mem_cons_self e l)).2
    have hnodup2 : ((g.edges.map pairOf) ++ pairOf e :: l.map pairOf).Nodup := by
      rw [← List.map_cons, ← List.map_append]
      exact hnodup
    have hnotpair : ¬ PairMem g.edges e.1 e.2.1 := by
      intro hpm
      rcases List.nodup_append.mp hnodup2 with ⟨_, _, hdisj⟩
      exact hdisj (mem_map_pairOf_iff.mpr hpm) (List.mem_cons_self _ _)
    have hcond : ¬ ((g.edges.any fun x => x.1 == e.1 && x.2.1 == e.2.1) = true) :=
      fun hc => hnotpair (hasEdge_iff.mp hc)
    have hstep : g.addEdge e.1 e.2.1 e.2.2 = ⟨g.nodes, g.edges ++ [e]⟩ := by
      unfold Graph.addEdge
      rw [Graph.ensureNode_of_mem hs, Graph.ensureNode_of_mem ht]
      unfold Graph.insertEdge
      rw [if_neg hcond]
    rw [hstep, ih]
    · show (⟨g.nodes, (g.edges ++ [e]) ++ l⟩ : Graph) = ⟨g.nodes, g.edges ++ e :: l⟩
      rw [List.append_assoc, List.singleton_append]
    · intro f hf
      exact hends f (List.mem_cons_of_mem e hf)
    · show (((g.edges ++ [e]) ++ l).map pairOf).Nodup
      rw [List.append_assoc, List.singleton_append]
      exact hnodup

/-! ## Claim theorems -/

/-- C1: for every assembled graph that is acyclic, `get_analysis_layers`
returns an ordered sequence of layers whose union contains every node id
exactly once (the flattened layers are a permutation of the duplicate-free
node-id list), and for every edge `(s, t)` the index of the layer holding
`s` is strictly below the index of the layer holding `t`. -/
theorem get_analysis_layers_acyclic_partition (ns : List Node) (es : List Edge)
    (hacyc : ¬ HasCycle (GraphBuilder.build ns es)) :
    ∃ ls : List (List String),
      get_analysis_layers (GraphBuilder.build ns es) = .ok ls ∧
      (GraphBuilder.build ns es).nodeIds.Nodup ∧
      ls.flatten.Perm (GraphBuilder.build ns es).nodeIds ∧
      (∀ s t ty, (s, t, ty) ∈ (GraphBuilder.build ns es).edges →
        ∀ (i j : Nat) (Li Lj : List String), ls[i]? = some Li → ls[j]? = some Lj →
          s ∈ Li → t ∈ Lj → i < j) := by
  cases htopo : topoGenerations (GraphBuilder.build ns es) with
  | error R => exact absurd (hasCycle_of_topoGenerations_error htopo) hacyc
  | ok ls =>
    refine ⟨ls, get_analysis_layers_of_ok htopo, build_nodup ns es, ?_, ?_⟩
    · rw [topoGenerations_def] at htopo
      exact (topoAux_ok_perm htopo).trans (sortIds_perm _)
    · intro s t ty hmem i j Li Lj hi hj hs ht
      rw [topoGenerations_def] at htopo
      exact topoAux_ok_mono htopo (hasEdge_iff.mpr ⟨ty, hmem⟩) hi hj hs ht

/-- C1 witness: a concrete three-node chain is layered into three
singleton layers satisfying every clause of the claim. -/
theorem get_analysis_layers_acyclic_partition_witness :
    ¬ HasCycle (GraphBuilder.build
      [⟨"A", "file", "A", ⟨"a.py", none, none, false⟩⟩,
       ⟨"B", "file", "B", ⟨"b.py", none, none, false⟩⟩,
       ⟨"C", "file", "C", ⟨"c.py", none, none, false⟩⟩]
      [⟨"A", "B", "imports"⟩, ⟨"B", "C", "imports"⟩]) ∧
    ∃ ls : List (List String),
      get_analysis_layers (GraphBuilder.build
        [⟨"A", "file", "A", ⟨"a.py", none, none, false⟩⟩,
         ⟨"B", "file", "B", ⟨"b.py", none, none, false⟩⟩,
         ⟨"C", "file", "C", ⟨"c.py", none, none, false⟩⟩]
        [⟨"A", "B", "imports"⟩, ⟨"B", "C", "imports"⟩]) = .ok ls ∧
      (GraphBuilder.build
        [⟨"A", "file", "A", ⟨"a.py", none, none, false⟩⟩,
         ⟨"B", "file", "B", ⟨"b.py", none, none, false⟩⟩,
         ⟨"C", "file", "C", ⟨"c.py", none, none, false⟩⟩]
        [⟨"A", "B", "imports"⟩, ⟨"B", "C", "imports"⟩]).nodeIds.Nodup ∧
      ls.flatten.Perm (GraphBuilder.build
        [⟨"A", "file", "A", ⟨"a.py", none, none, false⟩⟩,
         ⟨"B", "file", "B", ⟨"b.py", none, none, false⟩⟩,
         ⟨"C", "file", "C", ⟨"c.py", none, none, false⟩⟩]
        [⟨"A", "B", "imports"⟩, ⟨"B", "C", "imports"⟩]).nodeIds ∧
      (∀ s t ty, (s, t, ty) ∈ (GraphBuilder.build
        [⟨"A", "file", "A", ⟨"a.py", none, none, false⟩⟩,
         ⟨"B", "file", "B", ⟨"b.py", none, none, false⟩⟩,
         ⟨"C", "file", "C", ⟨"c.py", none, none, false⟩⟩]
        [⟨"A", "B", "imports"⟩, ⟨"B", "C", "imports"⟩]).edges →
        ∀ (i j : Nat) (Li Lj : List String), ls[i]? = some Li → ls[j]? = some Lj →
          s ∈ Li → t ∈ Lj → i < j) := by
  have hacyc : ¬ HasCycle (GraphBuilder.build
      [⟨"A", "file", "A", ⟨"a.py", none, none, false⟩⟩,
       ⟨"B", "file", "B", ⟨"b.py", none, none, false⟩⟩,
       ⟨"C", "file", "C", ⟨"c.py", none, none, false⟩⟩]
      [⟨"A", "B", "imports"⟩, ⟨"B", "C", "imports"⟩]) := by
    intro hcyc
    rcases topoGenerations_error_of_hasCycle (build_closed _ _) hcyc with ⟨R, hR⟩
    have hok : topoGenerations (GraphBuilder.build
        [⟨"A", "file", "A", ⟨"a.py", none, none, false⟩⟩,
         ⟨"B", "file", "B", ⟨"b.py", none, none, false⟩⟩,
         ⟨"C", "file", "C", ⟨"c.py", none, none, false⟩⟩]
        [⟨"A", "B", "imports"⟩, ⟨"B", "C", "imports"⟩]) =
        .ok [["A"], ["B"], ["C"]] := rfl
    rw [hok] at hR
    cases hR
  exact ⟨hacyc, get_analysis_layers_acyclic_partition _ _ hacyc⟩

/-- C2: for every assembled graph containing a cycle,
`get_analysis_layers` raises the distinguishable
`CircularDependencyError` (and returns no layering); its message renders
a concrete node-id sequence of length at least two that starts and ends
at the same id and follows actual edges of the graph. -/
theorem get_analysis_layers_cyclic_error (ns : List Node) (es : List Edge)
    (hcyc : HasCycle (GraphBuilder.build ns es)) :
    ∃ seq : List String,
      get_analysis_layers (GraphBuilder.build ns es) =
        .error (.circular (renderedCyclePath seq)) ∧
      2 ≤ seq.length ∧
      seq.head? = seq.getLast? ∧
      List.Chain' (fun a b =>
        hasEdge (GraphBuilder.build ns es).edges a b = true) seq := by
  rcases topoGenerations_error_of_hasCycle (build_closed ns es) hcyc with ⟨R, hR⟩
  have hcycR := isCycle_findCycleIn_of_error hR
  rcases hcycR with ⟨hne, hchain, hclose⟩
  refine ⟨findCycleIn (GraphBuilder.build ns es).edges R ++
    [(findCycleIn (GraphBuilder.build ns es).edges R).headD ""], ?_, ?_, ?_, ?_⟩
  · rw [get_analysis_layers_of_error hR]
    rfl
  · cases hfc : findCycleIn (GraphBuilder.build ns es).edges R with
    | nil => exact absurd hfc hne
    | cons a t => simp
  · cases hfc : findCycleIn (GraphBuilder.build ns es).edges R with
    | nil => exact absurd hfc hne
    | cons a t =>
      rw [List.head?_append_of_ne_nil _ (by simp), List.getLast?_concat]
      rfl
  · rw [List.chain'_append]
    refine ⟨hchain, List.chain'_singleton _, ?_⟩
    intro x hx y hy
    cases hfc : findCycleIn (GraphBuilder.build ns es).edges R with
    | nil => exact absurd hfc hne
    | cons a t =>
      rw [hfc] at hx hy hclose
      rw [getLast?_cons_eq_getLastD a "" t, Option.mem_some_iff] at hx
      rw [List.head?_cons, Option.mem_some_iff] at hy
      rw [← hx, ← hy]
      exact hclose

/-- C2 witness: the two-node cycle `A → B → A` is reported as the
closed path `'A' -> 'B' -> 'A'` inside the error message. -/
theorem get_analysis_layers_cyclic_error_witness :
    HasCycle (GraphBuilder.build []
      [⟨"A", "B", "imports"⟩, ⟨"B", "A", "calls"⟩]) ∧
    ∃ seq : List String,
      get_analysis_layers (GraphBuilder.build []
        [⟨"A", "B", "imports"⟩, ⟨"B", "A", "calls"⟩]) =
        .error (.circular (renderedCyclePath seq)) ∧
      2 ≤ seq.length ∧
      seq.head? = seq.getLast? ∧
      List.Chain' (fun a b =>
        hasEdge (GraphBuilder.build []
          [⟨"A", "B", "imports"⟩, ⟨"B", "A", "calls"⟩]).edges a b = true) seq := by
  have hcyc : HasCycle (GraphBuilder.build []
      [⟨"A", "B", "imports"⟩, ⟨"B", "A", "calls"⟩]) :=
    ⟨["A", "B"], by simp, List.chain'_pair.mpr (by decide), by decide⟩
  exact ⟨hcyc, get_analysis_layers_cyclic_error _ _ hcyc⟩

/-- C3 counterexample: two edges on the same `(source, target)` pair with
different types are *not* both retained — `nx.DiGraph` is a simple graph,
so the assembled graph holds exactly one edge for the pair, carrying the
later type only. -/
theorem build_same_pair_both_types_counterexample :
    (GraphBuilder.build [] [⟨"A", "B", "imports"⟩, ⟨"A", "B", "calls"⟩]).edges =
      [("A", "B", "calls")] ∧
    (GraphBuilder.build [] [⟨"A", "B", "imports"⟩, ⟨"A", "B", "calls"⟩]).edges.length
      = 1 := by
  exact ⟨rfl, rfl⟩

/-- C3 amended: for two edges on the same id pair the assembled graph
keeps one edge for that pair, whose type is the later edge's type
(last-write-wins on the `type` attribute). -/
theorem build_same_pair_last_type (ns : List Node) (s t ty₁ ty₂ : String) :
    (GraphBuilder.build ns [⟨s, t, ty₁⟩, ⟨s, t, ty₂⟩]).edges = [(s, t, ty₂)] := by
  rw [build_eq]
  have h0 : (buildNodes ns Graph.empty).edges = [] := by
    rw [edges_buildNodes]; rfl
  show (((buildNodes ns Graph.empty).addEdge s t ty₁).addEdge s t ty₂).edges = _
  have h1 : ((buildNodes ns Graph.empty).addEdge s t ty₁).edges = [(s, t, ty₁)] := by
    rw [Graph.edges_addEdge_eq]
    unfold Graph.insertEdge
    rw [h0]
    simp
  rw [Graph.edges_addEdge_eq]
  unfold Graph.insertEdge
  rw [h1]
  simp

/-- C4: when several nodes declare the same id, the assembled graph holds
exactly one node under that id and its attributes are exactly the dump of
the node applied last (the last entry of the node list with that id). -/
theorem build_last_write_wins (ns : List Node) (es : List Edge) (i : String) (n : Node)
    (h : ns.reverse.find? (fun m => m.id == i) = some n) :
    (GraphBuilder.build ns es).nodeIds.count i = 1 ∧
    (GraphBuilder.build ns es).dataOf i = some n.dump := by
  have hid : n.id = i := by
    have := List.find?_some h
    simpa using this
  have hmemns : n ∈ ns := List.mem_reverse.mp (List.mem_of_find?_eq_some h)
  have hmem0 : i ∈ (buildNodes ns Graph.empty).nodeIds :=
    mem_nodeIds_buildNodes.mpr (Or.inr ⟨n, hmemns, hid⟩)
  constructor
  · refine List.count_eq_one_of_mem (build_nodup ns es) ?_
    rw [build_eq]
    exact mem_nodeIds_buildEdges_of_mem hmem0
  · rw [build_eq, dataOf_buildEdges_of_mem hmem0, dataOf_buildNodes, h]

/-- C4 witness: of two nodes declaring id `X` the later one's
attributes win, and `X` appears once. -/
theorem build_last_write_wins_witness :
    ([⟨"X", "class", "first", ⟨"a.py", none, none, false⟩⟩,
      ⟨"X", "function", "second", ⟨"b.py", some 3, none, true⟩⟩]
        : List Node).reverse.find? (fun m => m.id == "X") =
      some ⟨"X", "function", "second", ⟨"b.py", some 3, none, true⟩⟩ ∧
    (GraphBuilder.build
      [⟨"X", "class", "first", ⟨"a.py", none, none, false⟩⟩,
       ⟨"X", "function", "second", ⟨"b.py", some 3, none, true⟩⟩]
      [⟨"X", "Y", "imports"⟩]).nodeIds.count "X" = 1 ∧
    (GraphBuilder.build
      [⟨"X", "class", "first", ⟨"a.py", none, none, false⟩⟩,
       ⟨"X", "function", "second", ⟨"b.py", some 3, none, true⟩⟩]
      [⟨"X", "Y", "imports"⟩]).dataOf "X" =
      some (Node.dump ⟨"X", "function", "second", ⟨"b.py", some 3, none, true⟩⟩) := by
  refine ⟨by decide, ?_⟩
  exact build_last_write_wins _ _ "X" _ (by decide)

/-- C5: every edge of the input is inserted (its id pair is present in
the assembled graph), both endpoints exist as nodes, and an endpoint id
no node declared gets a minimal placeholder node (an empty attribute
dict). -/
theorem build_dangling_edge_placeholder (ns : List Node) (es : List Edge) (e : Edge)
    (he : e ∈ es) :
    PairMem (GraphBuilder.build ns es).edges e.source e.target ∧
    e.source ∈ (GraphBuilder.build ns es).nodeIds ∧
    e.target ∈ (GraphBuilder.build ns es).nodeIds ∧
    ((∀ n ∈ ns, ¬ n.id = e.source) →
      (GraphBuilder.build ns es).dataOf e.source = some placeholderData) ∧
    ((∀ n ∈ ns, ¬ n.id = e.target) →
      (GraphBuilder.build ns es).dataOf e.target = some placeholderData) := by
  have hplace : ∀ x : String, (∀ n ∈ ns, ¬ n.id = x) →
      x ∈ (GraphBuilder.build ns es).nodeIds →
      (GraphBuilder.build ns es).dataOf x = some placeholderData := by
    intro x hundeclared hmem
    have h0 : (buildNodes ns Graph.empty).dataOf x = none := by
      rw [dataOf_buildNodes, List.find?_eq_none.mpr
        (fun m hm hp => hundeclared m (List.mem_reverse.mp hm) (by simpa using hp))]
      rfl
    have := @dataOf_buildEdges_placeholder es (buildNodes ns Graph.empty) x (Or.inl h0)
    rw [← build_eq] at this
    rcases this with hnone | hph
    · exact absurd hmem (Graph.dataOf_eq_none_iff.mp hnone)
    · exact hph
  have hsrc : e.source ∈ (GraphBuilder.build ns es).nodeIds :=
    mem_nodeIds_build.mpr (Or.inr ⟨e, he, Or.inl rfl⟩)
  have htgt : e.target ∈ (GraphBuilder.build ns es).nodeIds :=
    mem_nodeIds_build.mpr (Or.inr ⟨e, he, Or.inr rfl⟩)
  refine ⟨?_, hsrc, htgt, fun hu => hplace e.source hu hsrc,
    fun hu => hplace e.target hu htgt⟩
  rw [build_eq]
  exact pairMem_buildEdges_of_mem he

/-- C5 witness: an edge to the undeclared id `missing` is kept and the
endpoint becomes a placeholder node. -/
theorem build_dangling_edge_placeholder_witness :
    (⟨"A", "missing", "imports"⟩ : Edge) ∈
      ([⟨"A", "missing", "imports"⟩] : List Edge) ∧
    PairMem (GraphBuilder.build
      [⟨"A", "file", "A", ⟨"a.py", none, none, false⟩⟩]
      [⟨"A", "missing", "imports"⟩]).edges "A" "missing" ∧
    "missing" ∈ (GraphBuilder.build
      [⟨"A", "file", "A", ⟨"a.py", none, none, false⟩⟩]
      [⟨"A", "missing", "imports"⟩]).nodeIds ∧
    (GraphBuilder.build
      [⟨"A", "file", "A", ⟨"a.py", none, none, false⟩⟩]
      [⟨"A", "missing", "imports"⟩]).dataOf "missing" = some placeholderData := by
  have hmem : (⟨"A", "missing", "imports"⟩ : Edge) ∈
      ([⟨"A", "missing", "imports"⟩] : List Edge) := List.mem_cons_self _ _
  have h := build_dangling_edge_placeholder
    [⟨"A", "file", "A", ⟨"a.py", none, none, false⟩⟩]
    [⟨"A", "missing", "imports"⟩] ⟨"A", "missing", "imports"⟩ hmem
  exact ⟨hmem, h.1, h.2.2.1, h.2.2.2.2 (by decide)⟩

/-- C6: serializing an assembled graph to the link-list document and
decoding it back yields the graph itself — same node ids, same
attributes, same edge triples. -/
theorem json_roundtrip (ns : List Node) (es : List Edge) :
    JsonSerializer.deserialize
      (JsonSerializer.serialize (GraphBuilder.build ns es)) =
      GraphBuilder.build ns es := by
  unfold JsonSerializer.serialize JsonSerializer.deserialize
  have hx := foldl_addNode_of_nodup (GraphBuilder.build ns es).nodes Graph.empty
    (by show (([] : List String) ++ (GraphBuilder.build ns es).nodes.map Prod.fst).Nodup
        rw [List.nil_append]
        exact build_nodup ns es)
  have h1 : ((GraphBuilder.build ns es).nodes.foldl
      (fun g kd => g.addNode kd.1 kd.2) Graph.empty) =
      ⟨(GraphBuilder.build ns es).nodes, []⟩ := by rw [hx]; rfl
  rw [h1]
  have hy := foldl_addEdge_append (GraphBuilder.build ns es).edges
      ⟨(GraphBuilder.build ns es).nodes, []⟩
      (by intro e hem
          exact build_closed ns es e hem)
      (by show ((([] : List (String × String × String)) ++
            (GraphBuilder.build ns es).edges).map pairOf).Nodup
          rw [List.nil_append]
          exact build_pairs_nodup ns es)
  rw [hy]
  rfl

/-- C7 counterexample: a placeholder node (created for a dangling edge
target, hence carrying no `name` attribute) with id
`pkg/mod.py__mod.Foo` is labelled with its full id, not with the
simplified label `Foo` that the claim's identity-separator rule
demands. -/
theorem dot_label_counterexample :
    specSimplifiedLabel "pkg/mod.py__mod.Foo" = "Foo" ∧
    (DotSerializer.serialize (GraphBuilder.build []
        [⟨"src.py", "pkg/mod.py__mod.Foo", "imports"⟩])).1.nodes.find?
        (fun kd => kd.1 == "pkg/mod.py__mod.Foo") =
      some ("pkg/mod.py__mod.Foo",
        ⟨none, none, none, none, some "pkg/mod.py__mod.Foo"⟩) ∧
    ¬ (("pkg/mod.py__mod.Foo" : String) = "Foo") := by
  refine ⟨rfl, rfl, by decide⟩

/-- C7 amended: in the description-text output every node's `name`
attribute is removed, and its label is the last `:`-segment of its
`name` when it has one (hence the name itself, e.g. `Foo` for the
node with id `pkg/mod.py__mod.Foo` and name `Foo`), and the last
`:`-segment of its full id otherwise. -/
theorem dot_label_rule (ns : List Node) (es : List Edge) :
    ∀ k d, (k, d) ∈ (GraphBuilder.build ns es).nodes →
    ∃ d', (k, d') ∈ (DotSerializer.serialize (GraphBuilder.build ns es)).1.nodes ∧
      d'.name = none ∧
      d'.label = some (splitColonLast (d.name.getD k)) := by
  intro k d hmem
  refine ⟨vizStep k (VizData.ofNodeData d), ?_, rfl, rfl⟩
  unfold DotSerializer.serialize
  exact List.mem_map.mpr ⟨(k, d), hmem, rfl⟩

/-- C7 amended witness: the example node (id `pkg/mod.py__mod.Foo`,
name `Foo`) is labelled `Foo`, with no `name` attribute emitted. -/
theorem dot_label_rule_witness :
    (("pkg/mod.py__mod.Foo",
        Node.dump ⟨"pkg/mod.py__mod.Foo", "class", "Foo", ⟨"pkg/mod.py", none, none, false⟩⟩) ∈
      (GraphBuilder.build
        [⟨"pkg/mod.py__mod.Foo", "class", "Foo", ⟨"pkg/mod.py", none, none, false⟩⟩]
        []).nodes) ∧
    ∃ d', ("pkg/mod.py__mod.Foo", d') ∈
        (DotSerializer.serialize (GraphBuilder.build
          [⟨"pkg/mod.py__mod.Foo", "class", "Foo", ⟨"pkg/mod.py", none, none, false⟩⟩]
          [])).1.nodes ∧
      d'.name = none ∧
      d'.label = some "Foo" := by
  have hmem : (("pkg/mod.py__mod.Foo",
      Node.dump ⟨"pkg/mod.py__mod.Foo", "class", "Foo", ⟨"pkg/mod.py", none, none, false⟩⟩) ∈
      (GraphBuilder.build
        [⟨"pkg/mod.py__mod.Foo", "class", "Foo", ⟨"pkg/mod.py", none, none, false⟩⟩]
        []).nodes) := by decide
  rcases dot_label_rule _ _ _ _ hmem with ⟨d', hd', hname, hlabel⟩
  exact ⟨hmem, d', hd', hname, hlabel⟩

/-- C8: the layering operation — reported cycle included — is identical
for two graphs assembled from the same node and edge facts aggregated in
different orders upstream. -/
theorem get_analysis_layers_deterministic (ns₁ ns₂ : List Node) (es₁ es₂ : List Edge)
    (hn : ns₁.Perm ns₂) (he : es₁.Perm es₂) :
    get_analysis_layers (GraphBuilder.build ns₁ es₁) =
      get_analysis_layers (GraphBuilder.build ns₂ es₂) :=
  get_analysis_layers_congr (nodeIds_build_perm hn he) (hasEdge_build_congr he)

/-- C8 witness: a cyclic fact set aggregated in two different orders
yields the same reported cycle. -/
theorem get_analysis_layers_deterministic_witness :
    ([⟨"A", "file", "A", ⟨"a.py", none, none, false⟩⟩,
      ⟨"B", "file", "B", ⟨"b.py", none, none, false⟩⟩] : List Node).Perm
      [⟨"B", "file", "B", ⟨"b.py", none, none, false⟩⟩,
       ⟨"A", "file", "A", ⟨"a.py", none, none, false⟩⟩] ∧
    ([⟨"A", "B", "imports"⟩, ⟨"B", "A", "calls"⟩] : List Edge).Perm
      [⟨"B", "A", "calls"⟩, ⟨"A", "B", "imports"⟩] ∧
    get_analysis_layers (GraphBuilder.build
      [⟨"A", "file", "A", ⟨"a.py", none, none, false⟩⟩,
       ⟨"B", "file", "B", ⟨"b.py", none, none, false⟩⟩]
      [⟨"A", "B", "imports"⟩, ⟨"B", "A", "calls"⟩]) =
    get_analysis_layers (GraphBuilder.build
      [⟨"B", "file", "B", ⟨"b.py", none, none, false⟩⟩,
       ⟨"A", "file", "A", ⟨"a.py", none, none, false⟩⟩]
      [⟨"B", "A", "calls"⟩, ⟨"A", "B", "imports"⟩]) := by
  refine ⟨by decide, by decide, ?_⟩
  exact get_analysis_layers_deterministic _ _ _ _ (by decide) (by decide)

/-- C9: `generate_graph` checks the `node` toolchain exactly when the
discovered file set contains a TypeScript/JavaScript file: with such a
file present and `node` missing it fails with the toolchain error before
consulting any per-file parse result, and with no such file present the
check is skipped, so a missing `node` cannot fail the run. -/
theorem generate_graph_toolchain_check (which : String → Bool) (files : List String)
    (parse parse' : String → List Node × List Edge) :
    (files.any (fun p => TS_JS_EXTENSIONS.contains (pathSuffix p)) = true →
      which "node" = false →
      generate_graph which files parse =
        .error ("Command 'node' not found in PATH. " ++
          "Please ensure it is installed and accessible to run the parser.") ∧
      generate_graph which files parse = generate_graph which files parse') ∧
    (files.any (fun p => TS_JS_EXTENSIONS.contains (pathSuffix p)) = false →
      generate_graph which files parse =
        .ok (GraphBuilder.build (run_parallel_parsing files parse).1
          (run_parallel_parsing files parse).2)) := by
  constructor
  · intro hts hnode
    have herr : ∀ (pp : String → List Node × List Edge),
        generate_graph which files pp =
          .error ("Command 'node' not found in PATH. " ++
            "Please ensure it is installed and accessible to run the parser.") := by
      intro pp
      unfold generate_graph check_command_installed
      rw [if_pos hts, if_neg (by rw [hnode]; exact Bool.false_ne_true)]
      rfl
    exact ⟨herr parse, (herr parse).trans (herr parse').symm⟩
  · intro hts
    unfold generate_graph
    rw [if_neg (by rw [hts]; exact Bool.false_ne_true)]

/-- C9 witness: with a `.ts` file and no `node` on the PATH the run
fails fast independently of the parser, and with only a `.py` file the
absent toolchain does not fail the run. -/
theorem generate_graph_toolchain_check_witness :
    (["src/a.ts"].any (fun p => TS_JS_EXTENSIONS.contains (pathSuffix p)) = true ∧
      generate_graph (fun _ => false) ["src/a.ts"] (fun _ => ([], [])) =
        .error ("Command 'node' not found in PATH. " ++
          "Please ensure it is installed and accessible to run the parser.")) ∧
    (["src/a.py"].any (fun p => TS_JS_EXTENSIONS.contains (pathSuffix p)) = false ∧
      generate_graph (fun _ => false) ["src/a.py"] (fun _ => ([], [])) =
        .ok (GraphBuilder.build
          (run_parallel_parsing ["src/a.py"] (fun _ => ([], []))).1
          (run_parallel_parsing ["src/a.py"] (fun _ => ([], []))).2)) := by
  constructor
  · refine ⟨by decide, ?_⟩
    exact ((generate_graph_toolchain_check (fun _ => false) ["src/a.ts"]
      (fun _ => ([], [])) (fun _ => ([], []))).1 (by decide) rfl).1
  · refine ⟨by decide, ?_⟩
    exact (generate_graph_toolchain_check (fun _ => false) ["src/a.py"]
      (fun _ => ([], [])) (fun _ => ([], []))).2 (by decide)

/-- C10: `DotSerializer.serialize` computes its document on a copy: the
caller-visible graph after the call is the input graph unchanged (same
nodes, attributes, and edges), even though every node of the emitted
document has its `name` removed and a `label` added. -/
theorem dotSerializer_frame (g : Graph) :
    (DotSerializer.serialize g).2 = g ∧
    ((DotSerializer.serialize g).1.nodes.all (fun kd => kd.2.name == none)) = true ∧
    ((DotSerializer.serialize g).1.nodes.all (fun kd => kd.2.label != none)) = true := by
  refine ⟨rfl, ?_, ?_⟩
  · rw [List.all_eq_true]
    intro kd hkd
    rcases List.mem_map.mp hkd with ⟨kd₀, _, hfe⟩
    rw [← hfe]
    rfl
  · rw [List.all_eq_true]
    intro kd hkd
    rcases List.mem_map.mp hkd with ⟨kd₀, _, hfe⟩
    rw [← hfe]
    rfl

end DependencyMapper
